import Mathlib

/-!
Verification of the fastay route-discovery-and-dispatch engine.

This file gives a shallow embedding, in Lean 4, of the core of the
`syntay-team/fastay` repository (the variant of `dist/router.js` that uses the
route cache, the stack-based file walker, the optimized handler wrapper and the
parallel module loader, together with `src/middleware.ts` and
`src/utils/wrapMiddleware.ts`), and proves or refutes the behavioural claims
made about it.

Modelling conventions:
- JavaScript strings are modelled as `List Char` (with `String` wrappers where
  convenient); `Array.prototype.split`, the regex `/\/+/g` replacement, and
  `path.sep` (taken as `'/'`) are implemented directly on character lists.
- `path.relative` is modelled for the case the route loader exercises: an
  absolute file path lying under the routes root (the spec's input
  constraint); for other inputs the model returns the path unchanged, and no
  theorem below depends on that branch.
- The filesystem is a finite tree (`FSTree`/`FSForest`); `fs.readdirSync` on an
  unreadable directory (which throws in the source and is caught and logged)
  is modelled by a `readable` flag on each directory.
- Dynamic `import()` is an oracle `String → Nat → Option RouteModule`: the
  value of the n-th evaluation of a given file, `none` meaning the evaluation
  throws.  Distinct evaluations may yield distinct modules, which lets the
  model express "reference identity" as value identity.
- The Express response object is modelled by the trace of operations the
  wrapper performs on it (`ResAction`).
-/

namespace Fastay

/-! ## JavaScript string primitives on character lists -/

/-- Model of `String.prototype.split(sep)`: JS semantics, so `"".split` gives
`[""]` and separators at the ends give empty segments. -/
def splitSep (sep : Char) : List Char → List (List Char)
  | [] => [[]]
  | x :: xs =>
    if x = sep then [] :: splitSep sep xs
    else
      match splitSep sep xs with
      | h :: t => (x :: h) :: t
      | [] => [[x]]

/-- One pass of the regex replacement `/\/+/g → '/'`: `prev` records whether
the previously emitted character was a slash. -/
def collapseAux : Bool → List Char → List Char
  | _, [] => []
  | prev, c :: cs =>
    if c = '/' then
      if prev then collapseAux true cs else '/' :: collapseAux true cs
    else c :: collapseAux false cs

/-- Model of `s.replace(/\/+/g, '/')`: collapse every run of slashes to one. -/
def collapseSlashes (cs : List Char) : List Char :=
  collapseAux false cs

/-- Whether the string contains two consecutive slashes. -/
def hasAdjSlash : List Char → Bool
  | [] => false
  | [_] => false
  | a :: b :: t =>
    if a = '/' then (if b = '/' then true else hasAdjSlash (b :: t))
    else hasAdjSlash (b :: t)

/-- Model of `Array.prototype.join('/')` on the segment list. -/
def joinSegs : List (List Char) → List Char
  | [] => []
  | [s] => s
  | s :: rest => s ++ '/' :: joinSegs rest

/-- Strip `p` from the front of `s`, or fail. -/
def dropFront : List Char → List Char → Option (List Char)
  | [], s => some s
  | _ :: _, [] => none
  | p :: ps, c :: cs => if p = c then dropFront ps cs else none

/-- Association-list lookup (used to model the JS `Map`s of the router). -/
def lookupAssoc {α β : Type} [DecidableEq α] : α → List (α × β) → Option β
  | _, [] => none
  | k, (a, b) :: t => if a = k then some b else lookupAssoc k t

/-- Model of Node's `path.relative(apiDir, filePath)`, restricted to the
loader's use case: when `filePath` lies strictly under `apiDir` the result is
the suffix after `apiDir + '/'`, and equal paths give `""`.  Node's general
behaviour (`..` segments, cwd resolution) is not modelled; the theorems below
only evaluate this function on under-root inputs. -/
def pathRelative (apiDir filePath : List Char) : List Char :=
  if apiDir = filePath then []
  else
    match dropFront (apiDir ++ ['/']) filePath with
    | some r => r
    | none => filePath

/-! ## Path Mapper (`filePathToRoute`, dist/router.js lines 206-229) -/

/-- JS test `s.startsWith('[') && s.endsWith(']')`. -/
def isBracketSeg (s : List Char) : Bool :=
  match s.head?, s.getLast? with
  | some a, some b => if a = '[' then (if b = ']' then true else false) else false
  | _, _ => false

/-- One segment of the folder path: `[x]` becomes `:x` (JS `':' + s.slice(1, -1)`),
anything else passes through unchanged. -/
def convSegment (s : List Char) : List Char :=
  if isBracketSeg s then ':' :: (s.drop 1).dropLast else s

/-- Pure core of `filePathToRoute(apiDir, filePath, baseRoute)`: split the
relative path on the separator, pop the filename, keep only `route.ts` /
`route.js` files, convert bracketed folder segments to `:name` parameters,
join with slashes, apply the base route and collapse slash runs. -/
def filePathToRouteL (apiDir filePath baseRoute : List Char) : Option (List Char) :=
  let rel := pathRelative apiDir filePath
  let allParts := splitSep '/' rel
  let filename := allParts.getLast?.getD []
  let parts := allParts.dropLast
  if filename = "route.ts".data ∨ filename = "route.js".data then
    some (collapseSlashes (baseRoute ++ '/' :: joinSegs (parts.map convSegment)))
  else none

/-- String-level wrapper of the path mapper. -/
def filePathToRoute (apiDir filePath baseRoute : String) : Option String :=
  (filePathToRouteL apiDir.data filePath.data baseRoute.data).map fun l => ⟨l⟩

/-- The router's `routeCache`: maps a key string to a cached result (the source
caches `null` results as well, hence the `Option` value). -/
abbrev RouteCache := List (List Char × Option (List Char))

/-- The cache key `` `${apiDir}:${filePath}` `` of the source. -/
def cacheKey (apiDir filePath : List Char) : List Char :=
  apiDir ++ ':' :: filePath

/-- The cached `filePathToRoute`: consult `routeCache` first, otherwise run the
pure computation (the body of the source function) and store the result. -/
def filePathToRouteCachedL (rc : RouteCache) (apiDir filePath baseRoute : List Char) :
    Option (List Char) × RouteCache :=
  let k := cacheKey apiDir filePath
  match lookupAssoc k rc with
  | some v => (v, rc)
  | none =>
    let v := filePathToRouteL apiDir filePath baseRoute
    (v, (k, v) :: rc)

/-- Run a sequence of calls against the shared route cache, returning the
answer of each call and the final cache. -/
def runRouteCalls (rc : RouteCache) :
    List (List Char × List Char × List Char) → List (Option (List Char)) × RouteCache
  | [] => ([], rc)
  | (a, f, b) :: rest =>
    let p := filePathToRouteCachedL rc a f b
    let q := runRouteCalls p.2 rest
    (p.1 :: q.1, q.2)

/-! ## File Collector (`collectFiles`, dist/router.js lines 231-255) -/

mutual

/-- A filesystem entry: a plain file, or a directory with a readability flag
(`fs.readdirSync` throws on an unreadable directory; the source catches the
throw and logs a warning). -/
inductive FSTree where
  | file (name : String) : FSTree
  | dir (name : String) (readable : Bool) (children : FSForest) : FSTree

/-- A list of filesystem entries (mutual with `FSTree` so that recursive
definitions stay structural). -/
inductive FSForest where
  | nil : FSForest
  | cons (t : FSTree) (ts : FSForest) : FSForest

end

mutual

/-- Number of directories in a tree (the node itself included if it is one). -/
def dirCount : FSTree → Nat
  | .file _ => 0
  | .dir _ _ cs => 1 + dirCountF cs

/-- Number of directories in a forest. -/
def dirCountF : FSForest → Nat
  | .nil => 0
  | .cons t ts => dirCount t + dirCountF ts

end

/-- Suffix test on character lists. -/
def isSuffix (p s : List Char) : Bool :=
  List.isPrefixOf p.reverse s.reverse

/-- The extension filter `/\.(ts|js|mts|mjs)$/` of the walker. -/
def extMatch (n : List Char) : Bool :=
  isSuffix ".ts".data n || isSuffix ".js".data n ||
    isSuffix ".mts".data n || isSuffix ".mjs".data n

/-- One pending entry of the walker's explicit stack: the directory's full
path, its readability, and its children. -/
abbrev StackEntry := String × Bool × FSForest

/-- Measure of one stack entry: one for the directory plus its nested
directory count. -/
def entryMeasure (e : StackEntry) : Nat := 1 + dirCountF e.2.2

/-- Measure of the whole stack; it strictly decreases at every loop
iteration, which bounds the number of iterations. -/
def stackMeasure (st : List StackEntry) : Nat := (st.map entryMeasure).sum

/-- The subdirectories of a directory listing, as new stack entries, in
listing order.  The source iterates the listing backwards and pushes each
directory, so after the iteration the top of the stack is the first-listed
directory — i.e. exactly this list consed onto the remaining stack. -/
def dirEntriesOf (p : String) : FSForest → List StackEntry
  | .nil => []
  | .cons (.file _) ts => dirEntriesOf p ts
  | .cons (.dir n r cs) ts => (p ++ "/" ++ n, r, cs) :: dirEntriesOf p ts

/-- The extension-matching files of a directory listing, full paths, in
listing order.  The source's backward iteration appends them to the result in
reverse order, hence the `.reverse` at the use site. -/
def matchFilesOrd (p : String) : FSForest → List String
  | .nil => []
  | .cons (.file n) ts =>
    (if extMatch n.data then [p ++ "/" ++ n] else []) ++ matchFilesOrd p ts
  | .cons (.dir _ _ _) ts => matchFilesOrd p ts

/-- The walker's `while (stack.length > 0 && stack.length < maxDepth)` loop
(`maxDepth = 20`), with explicit fuel standing in for the while loop; the
measure decreases by at least one per iteration, so any fuel of at least
`stackMeasure stack` computes the loop to completion.  An unreadable
directory's `readdirSync` throw is caught: the entry is skipped (a warning is
logged) and the loop continues. -/
def collectLoopF : Nat → List StackEntry → List String → List String
  | 0, _, acc => acc
  | Nat.succ f, stack, acc =>
    match stack with
    | [] => acc
    | e :: rest =>
      if (e :: rest).length < 20 then
        if e.2.1 then
          collectLoopF f (dirEntriesOf e.1 e.2.2 ++ rest)
            (acc ++ (matchFilesOrd e.1 e.2.2).reverse)
        else collectLoopF f rest acc
      else acc

/-- Model of `collectFiles(dir)` on a directory with the given readability and
children: run the stack loop starting from the root entry. -/
def collectFiles (p : String) (readable : Bool) (children : FSForest) : List String :=
  collectLoopF (1 + dirCountF children) [(p, readable, children)] []

mutual

/-- Specification-side recursive collection: every extension-matching file
under the entry, descending only into readable directories. -/
def allFilesT (p : String) : FSTree → List String
  | .file n => if extMatch n.data then [p ++ "/" ++ n] else []
  | .dir n r cs => if r then allFilesF (p ++ "/" ++ n) cs else []

/-- Specification-side recursive collection over a forest. -/
def allFilesF (p : String) : FSForest → List String
  | .nil => []
  | .cons t ts => allFilesT p t ++ allFilesF p ts

end

/-- The files a pending stack entry still owes the walk. -/
def allFilesEntry (e : StackEntry) : List String :=
  if e.2.1 then allFilesF e.1 e.2.2 else []

/-! ## Handler Result Interpreter (`wrapHandler`, dist/router.js lines 266-329) -/

/-- A restricted JSON value (enough structure for the claims; nested arrays
and objects are not needed by any theorem below). -/
inductive JVal where
  | jNull : JVal
  | jBool (b : Bool) : JVal
  | jNum (n : Int) : JVal
  | jStr (s : String) : JVal
deriving DecidableEq

/-- Opaque pass-through option bags (`res.download` options, cookie
options). -/
abbrev Opts := List (String × String)

/-- One entry of the `cookies` map: `name → { value, options }`. -/
structure CookieData where
  value : String
  options : Option Opts
deriving DecidableEq

/-- The `file` descriptor `{ path, filename?, options? }`. -/
structure FileDesc where
  path : String
  filename : Option String
  options : Option Opts
deriving DecidableEq

/-- The `static` descriptor `{ path, contentType? }`. -/
structure StaticDesc where
  path : String
  contentType : Option String
deriving DecidableEq

/-- The `raw` field: a string or a byte buffer. -/
inductive RawVal where
  | ofString (s : String) : RawVal
  | buf (bytes : List Nat) : RawVal
deriving DecidableEq

/-- A structured handler result object; every field is optional, `none`
meaning the key is absent (or `undefined`). -/
structure RObj where
  status : Option Int
  body : Option JVal
  headers : Option (List (String × String))
  cookies : Option (List (String × CookieData))
  redirect : Option String
  file : Option FileDesc
  stream : Option Nat
  raw : Option RawVal
  st : Option StaticDesc
deriving DecidableEq

/-- The value a handler returns (when it returns one): the `typeof` cases the
wrapper distinguishes.  (`function`/`symbol` returns, which fall into the
switch's default `res.json` branch, are not modelled; no claim involves
them.) -/
inductive RVal where
  | vStr (s : String) : RVal
  | vNum (n : Int) : RVal
  | vBool (b : Bool) : RVal
  | vNull : RVal
  | vObj (o : RObj) : RVal
deriving DecidableEq

/-- The payload of the default JSON branch `res.json(response.body ?? result)`:
either the explicit `body`, or the whole result object when `body` is absent
or `null` (JS `??` treats both as nullish). -/
inductive JsonPayload where
  | fromBody (j : JVal) : JsonPayload
  | wholeObject (o : RObj) : JsonPayload
deriving DecidableEq

/-- One operation performed on the Express response object. -/
inductive ResAction where
  | setHeader (name value : String) : ResAction
  | setCookie (name value : String) (options : Opts) : ResAction
  | redirectTo (status : Int) (target : String) : ResAction
  | download (path : String) (filename : Option String) (options : Option Opts) : ResAction
  | pipeStream (id : Nat) : ResAction
  | sendRaw (status : Int) (r : RawVal) : ResAction
  | sendFile (path : String) : ResAction
  | jsonRes (status : Int) (payload : JsonPayload) : ResAction
  | sendText (s : String) : ResAction
deriving DecidableEq

/-- JS truthiness of an optional string field (absent and `""` are falsy). -/
def truthyStr : Option String → Bool
  | none => false
  | some s => if s = "" then false else true

/-- JS truthiness of the `raw` field (absent and `""` are falsy; a buffer,
even empty, is truthy). -/
def truthyRaw : Option RawVal → Bool
  | none => false
  | some (.ofString s) => if s = "" then false else true
  | some (.buf _) => true

/-- Model of `getMime`: `mime.lookup(filePath) || 'application/octet-stream'`
(the `mimeCache` memoizes a deterministic lookup and is therefore
semantically transparent).  `mimeLookup` returning `none` models the
library's `false`; the `||` also turns an empty string into the default. -/
def getMime (mimeLookup : String → Option String) (filePath : String) : String :=
  match mimeLookup filePath with
  | some t => if t = "" then "application/octet-stream" else t
  | none => "application/octet-stream"

/-- Actions of the headers loop `for (k, v) of Object.entries(response.headers)`. -/
def headerActs (o : RObj) : List ResAction :=
  match o.headers with
  | some hs => hs.map fun kv => ResAction.setHeader kv.1 kv.2
  | none => []

/-- Actions of the cookies loop `res.cookie(name, cookie.value, cookie.options || {})`. -/
def cookieActs (o : RObj) : List ResAction :=
  match o.cookies with
  | some cs => cs.map fun kv => ResAction.setCookie kv.1 kv.2.value (kv.2.options.getD [])
  | none => []

/-- Actions of the first matching branch of the terminal chain
(redirect / file / stream / raw / static / default JSON). -/
def terminalActs (mimeLookup : String → Option String) (o : RObj) : List ResAction :=
  if truthyStr o.redirect then
    [ResAction.redirectTo (o.status.getD 302) (o.redirect.getD "")]
  else
    match o.file with
    | some fd =>
      [ResAction.download fd.path (if truthyStr fd.filename then fd.filename else none) fd.options]
    | none =>
      match o.stream with
      | some sid => [ResAction.pipeStream sid]
      | none =>
        if truthyRaw o.raw then
          [ResAction.sendRaw (o.status.getD 200) ((o.raw).getD (.ofString ""))]
        else
          match o.st with
          | some sd =>
            [ResAction.setHeader "Content-Type"
                (if truthyStr sd.contentType then sd.contentType.getD ""
                 else getMime mimeLookup sd.path),
              ResAction.sendFile sd.path]
          | none =>
            [ResAction.jsonRes (o.status.getD 200)
                (match o.body with
                 | some b => if b = JVal.jNull then .wholeObject o else .fromBody b
                 | none => .wholeObject o)]

/-- The response-writing behaviour of the wrapper after the handler has
settled: the trace of operations performed on the response, as a function of
whether the headers were already flushed and of the returned value (`none`
standing for `undefined`).  Mirrors the guard, the `typeof` switch, the
`null` case, the headers loop, the cookies loop and the terminal chain of the
source, in source order. -/
def wrapHandlerResponse (mimeLookup : String → Option String)
    (headersSent : Bool) (result : Option RVal) : List ResAction :=
  if headersSent then []
  else
    match result with
    | none => []
    | some (.vStr s) => [.sendText s]
    | some (.vNum n) => [.sendText (toString n)]
    | some (.vBool b) => [.sendText (if b then "true" else "false")]
    | some .vNull => [.sendText "null"]
    | some (.vObj o) => headerActs o ++ cookieActs o ++ terminalActs mimeLookup o

/-- Whether an action terminates the response (everything except header and
cookie setting). -/
def isTerminalAct : ResAction → Bool
  | .setHeader _ _ => false
  | .setCookie _ _ _ => false
  | _ => true

/-! ## Module Loader & Route Registrar (`loadApiRoutes`, dist/router.js lines 331-395) -/

/-- The seven HTTP method names the registrar recognizes. -/
inductive Method where
  | GET | POST | PUT | DELETE | PATCH | OPTIONS | HEAD
deriving DecidableEq

/-- The method enumeration order `HTTP_METHODS` of the source. -/
def HTTP_METHODS : List Method :=
  [.GET, .POST, .PUT, .DELETE, .PATCH, .OPTIONS, .HEAD]

/-- A loaded route module: for each recognized export name, the handler
function (identified by an opaque id) if that export is a function; plus the
default export and whether the module has a truthy `error` export (the
registrar's `module.error` skip). -/
structure RouteModule where
  expGET : Option Nat
  expPOST : Option Nat
  expPUT : Option Nat
  expDELETE : Option Nat
  expPATCH : Option Nat
  expOPTIONS : Option Nat
  expHEAD : Option Nat
  defaultExport : Option Nat
  errorExport : Bool
deriving DecidableEq

/-- The export of a module under a given method name (`module[method]` when it
is a function). -/
def methodExport (m : RouteModule) : Method → Option Nat
  | .GET => m.expGET
  | .POST => m.expPOST
  | .PUT => m.expPUT
  | .DELETE => m.expDELETE
  | .PATCH => m.expPATCH
  | .OPTIONS => m.expOPTIONS
  | .HEAD => m.expHEAD

/-- Process-wide loader state: the production `moduleCache`, plus an
instrumentation count of how many times the dynamic import of each file has
been evaluated (the spec's "load-count instrumentation hook"). -/
structure LoaderState where
  moduleCache : List (String × RouteModule)
  importCount : List (String × Nat)

/-- The fresh loader state at process start. -/
def initLoaderState : LoaderState := ⟨[], []⟩

/-- How many times the import of `f` has been evaluated so far. -/
def countOf (st : LoaderState) (f : String) : Nat :=
  (lookupAssoc f st.importCount).getD 0

/-- The import oracle: the module the n-th evaluation of a file produces, or
`none` when that evaluation throws. -/
abbrev ImportOracle := String → Nat → Option RouteModule

/-- One file's load (the body of the `files.map(async file => ...)` closure):
in production consult the module cache first; otherwise evaluate the dynamic
import, caching a successful module in production.  A throwing import is
caught, logged, and surfaces as `none` (the `{ file, module: null, error }`
result). -/
def loadModuleOnce (prod : Bool) (oracle : ImportOracle) (st : LoaderState)
    (file : String) : Option RouteModule × LoaderState :=
  match (if prod then lookupAssoc file st.moduleCache else none) with
  | some m => (some m, st)
  | none =>
    let n := countOf st file
    let ic := (file, n + 1) :: st.importCount
    match oracle file n with
    | some m =>
      (some m, ⟨if prod then (file, m) :: st.moduleCache else st.moduleCache, ic⟩)
    | none => (none, ⟨st.moduleCache, ic⟩)

/-- The whole batch (`Promise.all(modulePromises)`): every file's load settles
and contributes a `(file, module-or-null)` entry, in file order.  The source
issues the loads concurrently on one event loop; since the walker produces
distinct paths, per-file sequential threading of the shared state is
observationally the same. -/
def loadAll (prod : Bool) (oracle : ImportOracle) :
    LoaderState → List String → List (String × Option RouteModule) × LoaderState
  | st, [] => ([], st)
  | st, f :: fs =>
    let p := loadModuleOnce prod oracle st f
    let q := loadAll prod oracle p.2 fs
    ((f, p.1) :: q.1, q.2)

/-- A registration: method, mounted route path, handler id. -/
abbrev Registration := Method × String × Nat

/-- The registrations of one module on its route: each recognized method
export in `HTTP_METHODS` order, then the default export as a GET handler
whenever it is a function (unconditionally — even if a `GET` export was
already registered). -/
def registerModule (route : String) (m : RouteModule) : List Registration :=
  (HTTP_METHODS.filterMap fun me => (methodExport m me).map fun h => (me, route, h)) ++
    (match m.defaultExport with
     | some h => [(Method.GET, route, h)]
     | none => [])

/-- The registration step for one settled load: skip failed loads and modules
with a truthy `error` export, map the file path to a route through the shared
route cache, skip non-route files, and register the module's handlers. -/
def registerFile (rc : RouteCache) (apiDir baseRoute : String)
    (entry : String × Option RouteModule) : List Registration × RouteCache :=
  match entry.2 with
  | none => ([], rc)
  | some m =>
    if m.errorExport then ([], rc)
    else
      let p := filePathToRouteCachedL rc apiDir.data entry.1.data baseRoute.data
      match p.1 with
      | none => ([], p.2)
      | some routeL => (registerModule ⟨routeL⟩ m, p.2)

/-- The registration loop over all settled loads. -/
def registerAll (rc : RouteCache) (apiDir baseRoute : String) :
    List (String × Option RouteModule) → List Registration × RouteCache
  | [] => ([], rc)
  | e :: es =>
    let p := registerFile rc apiDir baseRoute e
    let q := registerAll p.2 apiDir baseRoute es
    (p.1 ++ q.1, q.2)

/-- Model of `loadApiRoutes` after file collection: load every file, then
register every successfully loaded module; the returned count is the number
of `(method, route)` registrations (the source's `count++` per
registration). -/
def loadApiRoutesModel (prod : Bool) (oracle : ImportOracle) (st : LoaderState)
    (rc : RouteCache) (apiDir baseRoute : String) (files : List String) :
    List Registration × Nat × LoaderState × RouteCache :=
  let L := loadAll prod oracle st files
  let R := registerAll rc apiDir baseRoute L.1
  (R.1, R.1.length, L.2, R.2)

/-- The isolated contribution of a single file, computed from that file's
first import evaluation alone (claim-side description of loader
isolation). -/
def perFileRegs (oracle : ImportOracle) (apiDir baseRoute f : String) : List Registration :=
  match oracle f 0 with
  | none => []
  | some m =>
    if m.errorExport then []
    else
      match filePathToRouteL apiDir.data f.data baseRoute.data with
      | none => []
      | some routeL => registerModule ⟨routeL⟩ m

/-! ## Middleware Composer (`src/middleware.ts`, `src/utils/wrapMiddleware.ts`) -/

/-- A user middleware function: an opaque id, its `name`, and whether its
source text contains a `next(` call, resp. a `return` keyword (the inputs of
`validateMiddlewareCode`'s regex tests). -/
structure Mw where
  id : Nat
  name : String
  srcHasNextCall : Bool
  srcHasReturnKw : Bool
deriving DecidableEq

/-- `validateMiddlewareCode` passes iff the source has a `next(` call or a
`return` (otherwise it throws a `FastayMiddlewareError`). -/
def validateMiddlewareCode (m : Mw) : Bool :=
  m.srcHasNextCall || m.srcHasReturnKw

/-- A middleware as attached to the application: raw (`app.use(route, mw)`)
or wrapped by `wrapMiddleware`. -/
inductive Attached where
  | raw (m : Mw) : Attached
  | wrapped (m : Mw) : Attached
deriving DecidableEq

/-- The middleware a given attachment runs. -/
def mwOf : Attached → Mw
  | .raw m => m
  | .wrapped m => m

/-- Whether an attachment is unwrapped. -/
def isRawA : Attached → Bool
  | .raw _ => true
  | .wrapped _ => false

/-- `wrapMiddleware(mw)`: validate the source text (throwing on failure),
then return the wrapped middleware. -/
def wrapMiddlewareE (m : Mw) : Except String Attached :=
  if validateMiddlewareCode m then .ok (.wrapped m)
  else .error ("FastayMiddlewareError: " ++ m.name)

/-- The inner loop of `createMiddleware` for one prefix entry: wrap each
middleware in list order and attach it. -/
def attachWrappedList (route : String) : List Mw → Except String (List (String × Attached))
  | [] => .ok []
  | m :: ms =>
    match wrapMiddlewareE m with
    | .error e => .error e
    | .ok a =>
      match attachWrappedList route ms with
      | .error e => .error e
      | .ok as => .ok ((route, a) :: as)

/-- The attachments `createMiddleware(map)(app)` performs, in
`Object.entries` (insertion) order; a validation throw aborts the boot. -/
def createMiddlewareAttach :
    List (String × List Mw) → Except String (List (String × Attached))
  | [] => .ok []
  | (route, mws) :: rest =>
    match attachWrappedList route mws with
    | .error e => .error e
    | .ok as =>
      match createMiddlewareAttach rest with
      | .error e => .error e
      | .ok bs => .ok (as ++ bs)

/-- The attachments the map branch of `loadFastayMiddlewares` performs for a
prefix→list export: `app.use(route, mw)` for each entry, in order, with no
wrapping and no validation. -/
def loadFastayMapAttach (map : List (String × List Mw)) : List (String × Attached) :=
  (map.map fun rm => rm.2.map fun m => (rm.1, Attached.raw m)).flatten

/-- How one execution of an attached middleware ends: normal return, a
synchronous throw, or an asynchronous rejection. -/
inductive MwResult where
  | ret | throwSync | reject
deriving DecidableEq

/-- What the host observes of one middleware execution. -/
inductive RunOutcome where
  | normal : RunOutcome
  | nextErr : RunOutcome
  | unmediated (r : MwResult) : RunOutcome
deriving DecidableEq

/-- Execution semantics of an attachment.  The wrapper's
`try { await mw(req, res, next) } catch (err) { next(err) }` funnels both a
synchronous throw and an awaited rejection into `next(err)`; a raw
attachment passes whatever happens straight to the host, unmediated by this
layer. -/
def runAttached : Attached → MwResult → RunOutcome
  | .wrapped _, .ret => .normal
  | .wrapped _, .throwSync => .nextErr
  | .wrapped _, .reject => .nextErr
  | .raw _, r => .unmediated r

/-! ## Concrete fixtures used by witnesses and counterexamples -/

/-- A mime lookup that always falls back to the default type. -/
def mimeNone : String → Option String := fun _ => none

/-- A structured handler result with both `redirect` and `body` set (plus a
header and a cookie), exercising the precedence claim. -/
def demoRedirectBody : RObj :=
  { status := none
    body := some (JVal.jStr "ignored")
    headers := some [("X-Demo", "1")]
    cookies := some [("sid", ⟨"v", none⟩)]
    redirect := some "/login"
    file := none
    stream := none
    raw := none
    st := none }

/-- Build a forest from a list of trees. -/
def forestOfList : List FSTree → FSForest
  | [] => .nil
  | t :: ts => .cons t (forestOfList ts)

/-- Twenty readable subdirectories, each holding one matching route file. -/
def wideForest : FSForest :=
  forestOfList ((List.range 20).map fun i =>
    FSTree.dir ("d" ++ toString i) true (.cons (.file "route.ts") .nil))

/-- A module exporting only a `GET` function. -/
def modGETOnly : RouteModule :=
  { expGET := some 1, expPOST := none, expPUT := none, expDELETE := none
    expPATCH := none, expOPTIONS := none, expHEAD := none
    defaultExport := none, errorExport := false }

/-- A module exporting both a `GET` function and a function default export. -/
def modGETAndDefault : RouteModule :=
  { expGET := some 1, expPOST := none, expPUT := none, expDELETE := none
    expPATCH := none, expOPTIONS := none, expHEAD := none
    defaultExport := some 2, errorExport := false }

/-- Three route files, the middle one failing to load (its top-level
evaluation throws on every attempt). -/
def demoFiles : List String :=
  ["/r/a/route.ts", "/r/b/route.ts", "/r/c/route.ts"]

/-- The import oracle of the three-file scenario. -/
def demoOracle : ImportOracle := fun f _ =>
  if f = "/r/b/route.ts" then none else some modGETOnly

/-- A well-formed middleware (its source calls `next(`). -/
def mwAuth : Mw := ⟨1, "authMiddleware", true, false⟩

/-! ## Claim-side vocabulary for the interpreter theorems -/

/-- The kind of a terminal response action. -/
inductive TermKind where
  | redirect | fileDownload | streamPipe | rawSend | staticServe | jsonSend | textSend
deriving DecidableEq

/-- The kinds of the terminal actions of a trace, in order (header and cookie
operations are not terminal and contribute nothing). -/
def terminalKinds (l : List ResAction) : List TermKind :=
  l.filterMap fun a =>
    match a with
    | .setHeader _ _ => none
    | .setCookie _ _ _ => none
    | .redirectTo _ _ => some .redirect
    | .download _ _ _ => some .fileDownload
    | .pipeStream _ => some .streamPipe
    | .sendRaw _ _ => some .rawSend
    | .sendFile _ => some .staticServe
    | .jsonRes _ _ => some .jsonSend
    | .sendText _ => some .textSend

/-- The claim's precedence order: the first present (truthy) field among
redirect, file, stream, raw, static determines the terminal action; with none
of them present the default JSON branch fires. -/
def firstPresentKind (o : RObj) : TermKind :=
  if truthyStr o.redirect then .redirect
  else if o.file.isSome then .fileDownload
  else if o.stream.isSome then .streamPipe
  else if truthyRaw o.raw then .rawSend
  else if o.st.isSome then .staticServe
  else .jsonSend

/-! ## Claim-side vocabulary for the path-mapper theorems -/

/-- Processing a string under `collapseAux` with state `prev` drops no
character: no slash follows a slash, and the first character is not a slash
when the incoming state already saw one. -/
def dropsNothingB : Bool → List Char → Bool
  | _, [] => true
  | prev, c :: cs =>
    if c = '/' then (if prev then false else dropsNothingB true cs)
    else dropsNothingB false cs

/-- The `collapseAux` state after processing a string: whether its last
character (or, for the empty string, the incoming state) is a slash. -/
def endSlashState : Bool → List Char → Bool
  | s, [] => s
  | _, c :: cs => endSlashState (if c = '/' then true else false) cs

/-- Whether a route segment is a named parameter (starts with `:`). -/
def isParamSeg (s : List Char) : Bool :=
  match s.head? with
  | some c => if c = ':' then true else false
  | none => false

/-- The named-parameter segments of a route template, in order. -/
def paramSegs (r : List Char) : List (List Char) :=
  (splitSep '/' r).filter isParamSeg

/-- The names of the bracketed segments of a folder path, in order. -/
def bracketNames (parts : List (List Char)) : List (List Char) :=
  parts.filterMap fun s =>
    if isBracketSeg s then some ((s.drop 1).dropLast) else none

/-! ## Support lemmas for the interpreter claims -/

theorem terminalKinds_append (l₁ l₂ : List ResAction) :
    terminalKinds (l₁ ++ l₂) = terminalKinds l₁ ++ terminalKinds l₂ := by
  simp [terminalKinds, List.filterMap_append]

theorem terminalKinds_headerActs (o : RObj) : terminalKinds (headerActs o) = [] := by
  unfold headerActs
  cases o.headers with
  | none => rfl
  | some hs =>
    induction hs with
    | nil => rfl
    | cons kv t ih => simp [terminalKinds]

theorem terminalKinds_cookieActs (o : RObj) : terminalKinds (cookieActs o) = [] := by
  unfold cookieActs
  cases o.cookies with
  | none => rfl
  | some cs =>
    induction cs with
    | nil => rfl
    | cons kv t ih => simp [terminalKinds]

theorem terminalKinds_terminalActs (mlk : String → Option String) (o : RObj) :
    terminalKinds (terminalActs mlk o) = [firstPresentKind o] := by
  unfold terminalActs firstPresentKind
  cases hr : truthyStr o.redirect with
  | true => simp [terminalKinds]
  | false =>
    cases hf : o.file with
    | some fd => simp [terminalKinds]
    | none =>
      cases hs : o.stream with
      | some sid => simp [terminalKinds]
      | none =>
        cases hw : truthyRaw o.raw with
        | true => simp [terminalKinds]
        | false =>
          cases hst : o.st with
          | some sd => simp [terminalKinds]
          | none => simp [terminalKinds]

/-!
## C1 — handler-result precedence

Claim: for every structured-object handler result, the interpreter applies the
`headers` map and then the `cookies` map first whenever they are present, and
afterwards exactly one terminal action fires — the first present among
redirect, file, stream, raw, static — so in particular a result with both
`redirect` and `body` set produces a redirect and the body is never written.
-/

/-- C1 (confirmed): on a non-null object result with headers not yet flushed,
the wrapper's trace is the header actions, then the cookie actions, then the
actions of exactly one terminal branch; the single terminal action is the
first present among redirect / file / stream / raw / static (JSON by
default); and when `redirect` is set (truthy) the trace ends in the redirect
action alone, so a simultaneously set `body` is never written. -/
theorem handler_result_precedence (mlk : String → Option String) (o : RObj) :
    wrapHandlerResponse mlk false (some (.vObj o)) =
        headerActs o ++ cookieActs o ++ terminalActs mlk o
    ∧ terminalKinds (wrapHandlerResponse mlk false (some (.vObj o))) = [firstPresentKind o]
    ∧ (∀ t, o.redirect = some t → t ≠ "" →
        wrapHandlerResponse mlk false (some (.vObj o)) =
          headerActs o ++ cookieActs o ++ [ResAction.redirectTo (o.status.getD 302) t]) := by
  refine ⟨rfl, ?_, ?_⟩
  · show terminalKinds (headerActs o ++ cookieActs o ++ terminalActs mlk o) = _
    rw [terminalKinds_append, terminalKinds_append, terminalKinds_headerActs,
      terminalKinds_cookieActs, terminalKinds_terminalActs]
    rfl
  · intro t ht hne
    show headerActs o ++ cookieActs o ++ terminalActs mlk o = _
    have htr : truthyStr o.redirect = true := by
      rw [ht]; simp [truthyStr, hne]
    unfold terminalActs
    rw [htr]
    simp [ht]

/-- C1 witness: the demo result with both `redirect` and `body` set produces
exactly one header write, one cookie write and the redirect — the body is
never written. -/
theorem handler_result_precedence_witness :
    wrapHandlerResponse mimeNone false (some (.vObj demoRedirectBody)) =
      [ResAction.setHeader "X-Demo" "1", ResAction.setCookie "sid" "v" [],
        ResAction.redirectTo 302 "/login"] := by
  have h := (handler_result_precedence mimeNone demoRedirectBody).2.2 "/login" rfl (by decide)
  exact h.trans (by decide)

/-!
## C8 — headers-already-sent / undefined guard

Claim: if the response headers were already flushed when the handler
returned, or the handler returned `undefined`, the wrapper performs no
further operation on the response.
-/

/-- C8 (confirmed): with `res.headersSent` true, or with an `undefined`
result, the wrapper's response trace is empty — no status, header, body or
cookie operation is performed, for every result value and mime lookup. -/
theorem headers_sent_or_undefined_no_write (mlk : String → Option String) (r : Option RVal) :
    wrapHandlerResponse mlk true r = [] ∧ wrapHandlerResponse mlk false none = [] :=
  ⟨rfl, rfl⟩

/-!
## C3 — module cache in production, bypass in development

Claim: in production mode loading the same file path twice returns
reference-identical module objects and the dynamic import is evaluated only
once; in development mode the cache is bypassed and every load re-evaluates
the file.
-/

/-- C3 (confirmed): starting from a fresh loader state, in production mode a
successful first load caches the module, the second load of the same path
returns the very same module value, and the import of that path has been
evaluated exactly once; in development mode the cache is bypassed, the two
loads evaluate the import twice (evaluations 0 and 1, which may differ), and
the evaluation count is two. -/
theorem module_cache_prod_once_dev_bypass (oracle : ImportOracle) (f : String) :
    (∀ m, oracle f 0 = some m →
      (loadModuleOnce true oracle initLoaderState f).1 = some m
      ∧ (loadModuleOnce true oracle (loadModuleOnce true oracle initLoaderState f).2 f).1 = some m
      ∧ countOf (loadModuleOnce true oracle (loadModuleOnce true oracle initLoaderState f).2 f).2 f = 1)
    ∧ ((loadModuleOnce false oracle initLoaderState f).1 = oracle f 0
      ∧ (loadModuleOnce false oracle (loadModuleOnce false oracle initLoaderState f).2 f).1 = oracle f 1
      ∧ countOf (loadModuleOnce false oracle (loadModuleOnce false oracle initLoaderState f).2 f).2 f = 2) := by
  constructor
  · intro m hm
    simp [loadModuleOnce, initLoaderState, countOf, lookupAssoc, hm]
  · cases h0 : oracle f 0 with
    | some m =>
      cases h1 : oracle f 1 with
      | some m1 => simp [loadModuleOnce, initLoaderState, countOf, lookupAssoc, h0, h1]
      | none => simp [loadModuleOnce, initLoaderState, countOf, lookupAssoc, h0, h1]
    | none =>
      cases h1 : oracle f 1 with
      | some m1 => simp [loadModuleOnce, initLoaderState, countOf, lookupAssoc, h0, h1]
      | none => simp [loadModuleOnce, initLoaderState, countOf, lookupAssoc, h0, h1]

/-- C3 witness: the three-file oracle loads `/r/a/route.ts` once in
production (second load cache-served, one evaluation) and twice in
development. -/
theorem module_cache_prod_once_dev_bypass_witness :
    ((loadModuleOnce true demoOracle initLoaderState "/r/a/route.ts").1 = some modGETOnly
      ∧ (loadModuleOnce true demoOracle
            (loadModuleOnce true demoOracle initLoaderState "/r/a/route.ts").2 "/r/a/route.ts").1
          = some modGETOnly
      ∧ countOf (loadModuleOnce true demoOracle
            (loadModuleOnce true demoOracle initLoaderState "/r/a/route.ts").2 "/r/a/route.ts").2
            "/r/a/route.ts" = 1)
    ∧ ((loadModuleOnce false demoOracle initLoaderState "/r/a/route.ts").1
          = demoOracle "/r/a/route.ts" 0
      ∧ (loadModuleOnce false demoOracle
            (loadModuleOnce false demoOracle initLoaderState "/r/a/route.ts").2 "/r/a/route.ts").1
          = demoOracle "/r/a/route.ts" 1
      ∧ countOf (loadModuleOnce false demoOracle
            (loadModuleOnce false demoOracle initLoaderState "/r/a/route.ts").2 "/r/a/route.ts").2
            "/r/a/route.ts" = 2) :=
  ⟨(module_cache_prod_once_dev_bypass demoOracle "/r/a/route.ts").1 modGETOnly (by decide),
    (module_cache_prod_once_dev_bypass demoOracle "/r/a/route.ts").2⟩

/-!
## C10 — the default export always registers as GET

Claim: a module exporting both a `GET` function and a function default export
gets two GET handlers registered on the same route path, both counted.
-/

/-- Helper: a method list avoiding `GET` contributes no GET registration. -/
theorem countP_get_filterMap_of_ne (route : String) (m : RouteModule) :
    ∀ l : List Method, (∀ me ∈ l, me ≠ Method.GET) →
      ((l.filterMap fun me => (methodExport m me).map fun h => (me, route, h)).countP
        fun r => match r.1 with | Method.GET => true | _ => false) = 0 := by
  intro l
  induction l with
  | nil => intro _; rfl
  | cons me t ih =>
    intro h
    have hme : me ≠ Method.GET := h me (List.mem_cons_self me t)
    have ht : ∀ x ∈ t, x ≠ Method.GET := fun x hx => h x (List.mem_cons_of_mem me hx)
    cases hx : methodExport m me with
    | none => simpa [List.filterMap_cons, hx] using ih ht
    | some hh =>
      have hfalse : (match me with | Method.GET => true | _ => false) = false := by
        cases me
        · exact absurd rfl hme
        all_goals rfl
      simp [List.filterMap_cons, hx, List.countP_cons, hfalse, ih ht]

/-- Helper: the pair-building `filterMap` keeps exactly the present exports. -/
theorem length_filterMap_pairs (route : String) (m : RouteModule) (l : List Method) :
    (l.filterMap fun me => (methodExport m me).map fun h => (me, route, h)).length
      = (l.filterMap fun me => methodExport m me).length := by
  induction l with
  | nil => rfl
  | cons me t ih =>
    cases hx : methodExport m me <;> simp [List.filterMap_cons, hx, ih]

/-- C10 (confirmed): whenever a loaded module has both a `GET` export and a
function default export, the registrar registers the `GET` export, then —
unconditionally — the default export as a further GET handler on the same
route (it is the last registration); exactly two GET registrations result,
and the total registration count includes both (number of present method
exports plus one). -/
theorem default_export_registers_get (route : String) (m : RouteModule) (g d : Nat)
    (hg : m.expGET = some g) (hd : m.defaultExport = some d) :
    (Method.GET, route, g) ∈ registerModule route m
    ∧ (registerModule route m).getLast? = some (Method.GET, route, d)
    ∧ ((registerModule route m).countP
        fun r => match r.1 with | Method.GET => true | _ => false) = 2
    ∧ (registerModule route m).length
        = (HTTP_METHODS.filterMap fun me => methodExport m me).length + 1 := by
  have hgm : methodExport m Method.GET = some g := hg
  refine ⟨?_, ?_, ?_, ?_⟩
  · unfold registerModule
    refine List.mem_append_left _ ?_
    exact List.mem_filterMap.mpr ⟨Method.GET, by simp [HTTP_METHODS], by simp [hgm]⟩
  · unfold registerModule
    rw [hd]
    exact List.getLast?_concat _
  · unfold registerModule
    rw [hd, List.countP_append]
    have hrest : ∀ me ∈ [Method.POST, Method.PUT, Method.DELETE, Method.PATCH,
        Method.OPTIONS, Method.HEAD], me ≠ Method.GET := by decide
    have h0 := countP_get_filterMap_of_ne route m
      [Method.POST, Method.PUT, Method.DELETE, Method.PATCH, Method.OPTIONS, Method.HEAD] hrest
    have hsplit : HTTP_METHODS.filterMap
          (fun me => (methodExport m me).map fun h => (me, route, h))
        = (Method.GET, route, g) ::
            ([Method.POST, Method.PUT, Method.DELETE, Method.PATCH, Method.OPTIONS,
              Method.HEAD].filterMap fun me => (methodExport m me).map fun h => (me, route, h)) := by
      simp [HTTP_METHODS, List.filterMap_cons, hgm]
    rw [hsplit]
    simp [List.countP_cons, h0]
  · unfold registerModule
    rw [hd]
    simp [length_filterMap_pairs]

/-- C10 witness: the demo module with a `GET` export and a default export
produces exactly the two GET registrations on its route. -/
theorem default_export_registers_get_witness :
    (Method.GET, "/api/x", 1) ∈ registerModule "/api/x" modGETAndDefault
    ∧ (registerModule "/api/x" modGETAndDefault).getLast? = some (Method.GET, "/api/x", 2)
    ∧ ((registerModule "/api/x" modGETAndDefault).countP
        fun r => match r.1 with | Method.GET => true | _ => false) = 2
    ∧ (registerModule "/api/x" modGETAndDefault).length
        = (HTTP_METHODS.filterMap fun me => methodExport modGETAndDefault me).length + 1 :=
  default_export_registers_get "/api/x" modGETAndDefault 1 2 rfl rfl

/-!
## C9 — auto-discovered middleware map vs the explicit createMiddleware path

Claim (refuted): attaching an auto-discovered prefix→list mapping is
identical to the explicit `createMiddleware` path, each middleware wrapped so
that sync throws and async rejections are funneled to the host error
mechanism.  In the source, `loadFastayMiddlewares`' map branch attaches each
middleware with `app.use(route, mw)` — raw, with no `wrapMiddleware` call —
so the attachments differ and a rejection is not funneled by this layer.
-/

/-- C9 counterexample: for the one-entry map, the auto-discovery branch
attaches the middleware raw, the `createMiddleware` path attaches it wrapped;
the attachments differ, and on an asynchronous rejection the raw attachment
does not funnel the failure into `next(err)` while the wrapped one does. -/
theorem auto_middleware_map_not_wrapped :
    loadFastayMapAttach [("/auth", [mwAuth])] = [("/auth", Attached.raw mwAuth)]
    ∧ createMiddlewareAttach [("/auth", [mwAuth])] = .ok [("/auth", Attached.wrapped mwAuth)]
    ∧ Attached.raw mwAuth ≠ Attached.wrapped mwAuth
    ∧ runAttached (Attached.raw mwAuth) .reject ≠ RunOutcome.nextErr
    ∧ runAttached (Attached.wrapped mwAuth) .reject = RunOutcome.nextErr :=
  ⟨by decide, rfl, by decide, by decide, rfl⟩

/-- Helper: a successful `createMiddleware` inner loop wraps each middleware
of the entry, in list order. -/
theorem attachWrappedList_ok (route : String) :
    ∀ (mws : List Mw) (as : List (String × Attached)),
      attachWrappedList route mws = .ok as →
      as = mws.map fun m => (route, Attached.wrapped m) := by
  intro mws
  induction mws with
  | nil => intro as h; cases h; rfl
  | cons m ms ih =>
    intro as h
    unfold attachWrappedList at h
    cases hw : wrapMiddlewareE m with
    | error e => rw [hw] at h; cases h
    | ok a =>
      rw [hw] at h
      cases hr : attachWrappedList route ms with
      | error e => rw [hr] at h; cases h
      | ok bs =>
        rw [hr] at h
        cases h
        have hb := ih bs hr
        have ha : a = Attached.wrapped m := by
          unfold wrapMiddlewareE at hw
          by_cases hv : validateMiddlewareCode m = true
          · rw [if_pos hv] at hw; cases hw; rfl
          · rw [if_neg hv] at hw; cases hw
        rw [ha, hb]
        rfl

/-- Helper: a successful `createMiddleware` run wraps every middleware of
every entry, in entry and list order. -/
theorem createMiddlewareAttach_ok :
    ∀ (map : List (String × List Mw)) (l : List (String × Attached)),
      createMiddlewareAttach map = .ok l →
      l = (map.map fun rm => rm.2.map fun m => (rm.1, Attached.wrapped m)).flatten := by
  intro map
  induction map with
  | nil => intro l h; cases h; rfl
  | cons rm rest ih =>
    intro l h
    unfold createMiddlewareAttach at h
    cases rm with
    | mk route mws =>
      cases ha : attachWrappedList route mws with
      | error e => rw [ha] at h; cases h
      | ok as =>
        rw [ha] at h
        cases hr : createMiddlewareAttach rest with
        | error e => rw [hr] at h; cases h
        | ok bs =>
          rw [hr] at h
          cases h
          rw [attachWrappedList_ok route mws as ha, ih bs hr]
          rfl

/-- C9 (corrected): a successfully composed `createMiddleware` map and the
auto-discovery map branch attach the same middlewares under the same
prefixes in the same order, but the auto-discovery branch attaches every one
of them raw while `createMiddleware` wraps every one; the wrapper funnels
both synchronous throws and asynchronous rejections into `next(err)`, and a
raw attachment passes every failure to the host unmediated. -/
theorem auto_middleware_map_vs_create (map : List (String × List Mw))
    (l : List (String × Attached)) (h : createMiddlewareAttach map = .ok l) :
    (loadFastayMapAttach map).map (fun e => (e.1, mwOf e.2))
        = l.map (fun e => (e.1, mwOf e.2))
    ∧ (∀ e ∈ loadFastayMapAttach map, isRawA e.2 = true)
    ∧ (∀ e ∈ l, isRawA e.2 = false)
    ∧ (∀ m : Mw, runAttached (.wrapped m) .throwSync = .nextErr
        ∧ runAttached (.wrapped m) .reject = .nextErr)
    ∧ (∀ (m : Mw) (r : MwResult), runAttached (.raw m) r = .unmediated r) := by
  have hl := createMiddlewareAttach_ok map l h
  refine ⟨?_, ?_, ?_, fun m => ⟨rfl, rfl⟩, fun m r => rfl⟩
  · rw [hl]
    unfold loadFastayMapAttach
    rw [List.map_flatten, List.map_flatten, List.map_map, List.map_map]
    congr 1
    apply List.map_congr_left
    intro rm _
    simp [mwOf]
  · intro e he
    unfold loadFastayMapAttach at he
    rcases List.mem_flatten.mp he with ⟨inner, hin, hein⟩
    rcases List.mem_map.mp hin with ⟨rm, _, rfl⟩
    rcases List.mem_map.mp hein with ⟨m, _, rfl⟩
    rfl
  · intro e he
    rw [hl] at he
    rcases List.mem_flatten.mp he with ⟨inner, hin, hein⟩
    rcases List.mem_map.mp hin with ⟨rm, _, rfl⟩
    rcases List.mem_map.mp hein with ⟨m, _, rfl⟩
    rfl

/-- C9 witness: on the one-entry map the two paths agree once the wrapping is
stripped. -/
theorem auto_middleware_map_vs_create_witness :
    (loadFastayMapAttach [("/auth", [mwAuth])]).map (fun e => (e.1, mwOf e.2))
      = ([("/auth", Attached.wrapped mwAuth)]).map (fun e => (e.1, mwOf e.2)) :=
  (auto_middleware_map_vs_create [("/auth", [mwAuth])]
    [("/auth", Attached.wrapped mwAuth)] rfl).1

/-! ## Support lemmas for the path mapper -/

theorem getLast?_cons_of_ne_nil {α : Type} (a : α) (l : List α) (h : l ≠ []) :
    (a :: l).getLast? = l.getLast? := by
  cases l with
  | nil => exact absurd rfl h
  | cons b t => exact List.getLast?_cons_cons

theorem getLast?_append_ne {α : Type} (u v : List α) (h : v ≠ []) :
    (u ++ v).getLast? = v.getLast? := by
  rw [List.getLast?_append]
  cases hv : v.getLast? with
  | none => exact absurd (List.getLast?_eq_none_iff.mp hv) h
  | some a => rfl

theorem dropFront_append (p r : List Char) : dropFront p (p ++ r) = some r := by
  induction p with
  | nil => rfl
  | cons c cs ih => simp [dropFront, ih]

theorem pathRelative_under (a x : List Char) : pathRelative a (a ++ '/' :: x) = x := by
  have hne : a ≠ a ++ '/' :: x := by
    intro h
    have := congrArg List.length h
    simp at this
  have hsplit : a ++ '/' :: x = (a ++ ['/']) ++ x := by simp
  rw [pathRelative, if_neg hne, hsplit, dropFront_append]

theorem splitSep_ne_nil (c : Char) (s : List Char) : splitSep c s ≠ [] := by
  induction s with
  | nil => simp [splitSep]
  | cons x xs ih =>
    by_cases h : x = c
    · simp [splitSep, h]
    · simp only [splitSep, if_neg h]
      cases hs : splitSep c xs with
      | nil => exact absurd hs ih
      | cons a t => simp

theorem splitSep_append (c : Char) (u v : List Char) :
    splitSep c (u ++ c :: v) = splitSep c u ++ splitSep c v := by
  induction u with
  | nil => simp [splitSep]
  | cons x xs ih =>
    by_cases h : x = c
    · subst h
      simp only [List.cons_append, splitSep, if_pos rfl, List.append_eq]
      rw [ih]
      simp
    · simp only [List.cons_append, splitSep, if_neg h, List.append_eq]
      cases hs : splitSep c xs with
      | nil => exact absurd hs (splitSep_ne_nil c xs)
      | cons a t =>
        rw [ih, hs]
        simp

theorem splitSep_no_sep (c : Char) (x : List Char) (h : c ∉ x) : splitSep c x = [x] := by
  induction x with
  | nil => rfl
  | cons a as ih =>
    have ha : a ≠ c := fun hh => h (hh ▸ List.mem_cons_self a as)
    have has : c ∉ as := fun hh => h (List.mem_cons_of_mem a hh)
    simp only [splitSep, if_neg ha, ih has]

theorem mem_of_mem_splitSep (c : Char) :
    ∀ (s : List Char), ∀ seg ∈ splitSep c s, ∀ a ∈ seg, a ∈ s := by
  intro s
  induction s with
  | nil =>
    intro seg hseg a ha
    simp [splitSep] at hseg
    subst hseg
    cases ha
  | cons x xs ih =>
    intro seg hseg a ha
    by_cases h : x = c
    · rw [splitSep, if_pos h] at hseg
      cases hseg with
      | head => cases ha
      | tail _ htail => exact List.mem_cons_of_mem x (ih seg htail a ha)
    · rw [splitSep, if_neg h] at hseg
      cases hs : splitSep c xs with
      | nil => exact absurd hs (splitSep_ne_nil c xs)
      | cons sh st =>
        rw [hs] at hseg
        cases hseg with
        | head =>
          cases ha with
          | head => exact List.mem_cons_self x xs
          | tail _ hh =>
            exact List.mem_cons_of_mem x (ih sh (hs ▸ List.mem_cons_self sh st) a hh)
        | tail _ htail =>
          exact List.mem_cons_of_mem x
            (ih seg (hs ▸ List.mem_cons_of_mem sh htail) a ha)

theorem splitSep_joinSegs :
    ∀ (L : List (List Char)), (∀ s ∈ L, '/' ∉ s) → L ≠ [] →
      splitSep '/' (joinSegs L) = L := by
  intro L
  induction L with
  | nil => intro _ hne; exact absurd rfl hne
  | cons x rest ih =>
    intro h _
    cases rest with
    | nil => simpa [joinSegs] using splitSep_no_sep '/' x (h x (List.mem_cons_self x []))
    | cons y t =>
      have hx : '/' ∉ x := h x (List.mem_cons_self x (y :: t))
      have hrest : ∀ s ∈ y :: t, '/' ∉ s := fun s hs => h s (List.mem_cons_of_mem x hs)
      show splitSep '/' (x ++ '/' :: joinSegs (y :: t)) = x :: y :: t
      rw [splitSep_append, splitSep_no_sep '/' x hx, ih hrest (by simp)]
      rfl

theorem joinSegs_ne_nil :
    ∀ (L : List (List Char)), (∀ s ∈ L, s ≠ []) → L ≠ [] → joinSegs L ≠ [] := by
  intro L
  induction L with
  | nil => intro _ hne; exact absurd rfl hne
  | cons x rest _ =>
    intro h _
    cases rest with
    | nil => exact h x (List.mem_cons_self x [])
    | cons y t =>
      show x ++ '/' :: joinSegs (y :: t) ≠ []
      simp

theorem joinSegs_getLast :
    ∀ (L : List (List Char)), (∀ s ∈ L, s ≠ [] ∧ '/' ∉ s) → L ≠ [] →
      ∃ ch, (joinSegs L).getLast? = some ch ∧ ch ≠ '/' := by
  intro L
  induction L with
  | nil => intro _ hne; exact absurd rfl hne
  | cons x rest ih =>
    intro h _
    cases rest with
    | nil =>
      have hx := h x (List.mem_cons_self x [])
      show ∃ ch, x.getLast? = some ch ∧ ch ≠ '/'
      cases hlast : x.getLast? with
      | none => exact absurd (List.getLast?_eq_none_iff.mp hlast) hx.1
      | some ch =>
        refine ⟨ch, rfl, ?_⟩
        intro hc
        subst hc
        have hmem : '/' ∈ x := by
          have := List.getLast?_eq_some_iff.mp hlast
          obtain ⟨ys, rfl⟩ := this
          simp
        exact hx.2 hmem
    | cons y t =>
      have hrest : ∀ s ∈ y :: t, s ≠ [] ∧ '/' ∉ s := fun s hs => h s (List.mem_cons_of_mem x hs)
      obtain ⟨ch, hch, hne⟩ := ih hrest (by simp)
      have hjoin_ne : joinSegs (y :: t) ≠ [] :=
        joinSegs_ne_nil (y :: t) (fun s hs => (hrest s hs).1) (by simp)
      refine ⟨ch, ?_, hne⟩
      show (x ++ '/' :: joinSegs (y :: t)).getLast? = some ch
      rw [getLast?_append_ne x _ (by simp), getLast?_cons_of_ne_nil '/' _ hjoin_ne, hch]

theorem dropsNothingB_no_slash :
    ∀ (x : List Char) (s : Bool), '/' ∉ x → dropsNothingB s x = true := by
  intro x
  induction x with
  | nil => intro _ _; rfl
  | cons c cs ih =>
    intro s h
    have hc : c ≠ '/' := fun hh => h (hh ▸ List.mem_cons_self c cs)
    have hcs : '/' ∉ cs := fun hh => h (List.mem_cons_of_mem c hh)
    rw [dropsNothingB, if_neg hc]
    exact ih false hcs

theorem endSlashState_no_slash :
    ∀ (x : List Char) (s : Bool), x ≠ [] → '/' ∉ x → endSlashState s x = false := by
  intro x
  induction x with
  | nil => intro _ h _; exact absurd rfl h
  | cons c cs ih =>
    intro s _ h
    have hc : c ≠ '/' := fun hh => h (hh ▸ List.mem_cons_self c cs)
    have hcs : '/' ∉ cs := fun hh => h (List.mem_cons_of_mem c hh)
    rw [endSlashState, if_neg hc]
    cases cs with
    | nil => rfl
    | cons b t => exact ih false (by simp) hcs

theorem endSlashState_append (u v : List Char) (s : Bool) :
    endSlashState s (u ++ v) = endSlashState (endSlashState s u) v := by
  induction u generalizing s with
  | nil => rfl
  | cons c cs ih => rw [List.cons_append, endSlashState, ih, endSlashState]

theorem dropsNothingB_append :
    ∀ (u : List Char) (s : Bool) (v : List Char), dropsNothingB s u = true →
      dropsNothingB s (u ++ v) = dropsNothingB (endSlashState s u) v := by
  intro u
  induction u with
  | nil => intro s v _; rfl
  | cons c cs ih =>
    intro s v h
    by_cases hc : c = '/'
    · subst hc
      rw [dropsNothingB, if_pos rfl] at h
      cases s with
      | true => simp at h
      | false =>
        rw [List.cons_append, dropsNothingB]
        simp only [if_pos rfl, Bool.false_eq_true, if_false]
        rw [ih true v h, endSlashState]
        rfl
    · rw [dropsNothingB, if_neg hc] at h
      rw [List.cons_append, dropsNothingB, if_neg hc, ih false v h, endSlashState]
      simp [hc]

theorem collapseAux_append :
    ∀ (u : List Char) (s : Bool) (v : List Char), dropsNothingB s u = true →
      collapseAux s (u ++ v) = u ++ collapseAux (endSlashState s u) v := by
  intro u
  induction u with
  | nil => intro s v _; rfl
  | cons c cs ih =>
    intro s v h
    by_cases hc : c = '/'
    · subst hc
      rw [dropsNothingB, if_pos rfl] at h
      cases s with
      | true => simp at h
      | false =>
        rw [List.cons_append, collapseAux]
        simp only [if_pos rfl]
        rw [ih true v h, endSlashState]
        rfl
    · rw [dropsNothingB, if_neg hc] at h
      rw [List.cons_append, collapseAux]
      simp only [if_neg hc]
      rw [ih false v h, endSlashState]
      simp [hc]

theorem collapseAux_noop (u : List Char) (s : Bool) (h : dropsNothingB s u = true) :
    collapseAux s u = u := by
  have := collapseAux_append u s [] h
  simpa [collapseAux] using this

theorem endSlashState_true_getLast :
    ∀ (x : List Char) (s : Bool), endSlashState s x = true → x = [] ∨ x.getLast? = some '/' := by
  intro x
  induction x with
  | nil => intro _ _; exact Or.inl rfl
  | cons c cs ih =>
    intro s h
    rw [endSlashState] at h
    rcases ih _ h with hnil | hlast
    · subst hnil
      simp only [endSlashState] at h
      right
      have hc : c = '/' := by
        by_cases hcc : c = '/'
        · exact hcc
        · rw [if_neg hcc] at h; cases h
      subst hc
      rfl
    · right
      have hcs : cs ≠ [] := by
        intro hn
        rw [hn] at hlast
        cases hlast
      rw [getLast?_cons_of_ne_nil c cs hcs]
      exact hlast

theorem collapseAux_getLast :
    ∀ (x : List Char) (ch : Char), ch ≠ '/' → ∀ (s : Bool),
      x.getLast? = some ch → (collapseAux s x).getLast? = some ch := by
  intro x
  induction x with
  | nil => intro ch _ s h; cases h
  | cons c cs ih =>
    intro ch hch s h
    cases cs with
    | nil =>
      have hc : c = ch := by
        simpa using h
      subst hc
      rw [collapseAux, if_neg hch]
      rfl
    | cons b t =>
      have h' : (b :: t).getLast? = some ch := by
        rwa [getLast?_cons_of_ne_nil c (b :: t) (by simp)] at h
      have hr := ih ch hch
      by_cases hc : c = '/'
      · subst hc
        rw [collapseAux, if_pos rfl]
        cases s with
        | true => exact hr true h'
        | false =>
          simp only [Bool.false_eq_true, if_false]
          have hres := hr true h'
          have hne : collapseAux true (b :: t) ≠ [] := by
            intro hn
            rw [hn] at hres
            cases hres
          rw [getLast?_cons_of_ne_nil '/' _ hne]
          exact hres
      · rw [collapseAux, if_neg hc]
        have hres := hr false h'
        have hne : collapseAux false (b :: t) ≠ [] := by
          intro hn
          rw [hn] at hres
          cases hres
        rw [getLast?_cons_of_ne_nil c _ hne]
        exact hres

theorem collapseAux_true_not_slash_head :
    ∀ (x : List Char) (r : List Char), collapseAux true x ≠ '/' :: r := by
  intro x
  induction x with
  | nil => intro r h; cases h
  | cons c cs ih =>
    intro r h
    by_cases hc : c = '/'
    · subst hc
      rw [collapseAux, if_pos rfl] at h
      exact ih r h
    · rw [collapseAux, if_neg hc] at h
      exact hc (List.head_eq_of_cons_eq h)

theorem collapseAux_no_adj :
    ∀ (x : List Char) (s : Bool), hasAdjSlash (collapseAux s x) = false := by
  intro x
  induction x with
  | nil => intro s; rfl
  | cons c cs ih =>
    intro s
    by_cases hc : c = '/'
    · subst hc
      rw [collapseAux, if_pos rfl]
      cases s with
      | true => exact ih true
      | false =>
        simp only [Bool.false_eq_true, if_false]
        cases hr : collapseAux true cs with
        | nil => rfl
        | cons b t =>
          have hb : b ≠ '/' := by
            intro hbb
            subst hbb
            exact collapseAux_true_not_slash_head cs t hr
          have := ih true
          rw [hr] at this
          rw [hasAdjSlash, if_pos rfl, if_neg hb]
          exact this
    · rw [collapseAux, if_neg hc]
      cases hr : collapseAux false cs with
      | nil => rfl
      | cons b t =>
        have := ih false
        rw [hr] at this
        rw [hasAdjSlash, if_neg hc]
        exact this

theorem convSegment_ne_nil (p : List Char) (h : p ≠ []) : convSegment p ≠ [] := by
  unfold convSegment
  by_cases hb : isBracketSeg p = true
  · rw [if_pos hb]; simp
  · rw [if_neg hb]; exact h

theorem convSegment_no_slash (p : List Char) (h : '/' ∉ p) : '/' ∉ convSegment p := by
  unfold convSegment
  by_cases hb : isBracketSeg p = true
  · rw [if_pos hb]
    intro hm
    cases hm with
    | tail _ ht =>
      exact h ((List.drop_sublist 1 p).subset ((List.dropLast_sublist _).subset ht))
  · rw [if_neg hb]; exact h

theorem isParamSeg_colon (r : List Char) : isParamSeg (':' :: r) = true := by
  simp [isParamSeg]

theorem isParamSeg_convSegment_false (p : List Char) (hb : isBracketSeg p = false)
    (hh : p.head? ≠ some ':') : isParamSeg (convSegment p) = false := by
  unfold convSegment
  rw [hb]
  simp only [Bool.false_eq_true, if_false]
  unfold isParamSeg
  cases hx : p.head? with
  | none => rfl
  | some a =>
    have ha : a ≠ ':' := by
      intro hc
      subst hc
      exact hh hx
    simp [ha]

theorem filter_param_conv :
    ∀ (parts : List (List Char)),
      (∀ p ∈ parts, p ≠ [] ∧ '/' ∉ p ∧ p.head? ≠ some ':') →
      (parts.map convSegment).filter isParamSeg
        = (bracketNames parts).map fun n => ':' :: n := by
  intro parts
  induction parts with
  | nil => intro _; rfl
  | cons p ps ih =>
    intro h
    have hp := h p (List.mem_cons_self p ps)
    have hps : ∀ q ∈ ps, q ≠ [] ∧ '/' ∉ q ∧ q.head? ≠ some ':' :=
      fun q hq => h q (List.mem_cons_of_mem p hq)
    cases hb : isBracketSeg p with
    | true =>
      have hconv : convSegment p = ':' :: (p.drop 1).dropLast := by
        unfold convSegment; rw [if_pos hb]
      simp only [List.map_cons, List.filter_cons, hconv, isParamSeg_colon]
      rw [if_pos trivial, ih hps]
      unfold bracketNames
      rw [List.filterMap_cons]
      simp [hb, bracketNames]
    | false =>
      have hfalse := isParamSeg_convSegment_false p hb hp.2.2
      have hconv : convSegment p = p := by
        unfold convSegment; rw [hb]; rfl
      simp only [List.map_cons, List.filter_cons, hfalse]
      simp only [Bool.false_eq_true, if_false]
      rw [ih hps]
      unfold bracketNames
      rw [List.filterMap_cons]
      simp [hb, bracketNames]

theorem paramSegs_append_slash (u v : List Char) :
    paramSegs (u ++ '/' :: v) = paramSegs u ++ paramSegs v := by
  unfold paramSegs
  rw [splitSep_append, List.filter_append]

theorem filter_isParam_eq_nil (L : List (List Char))
    (h : ∀ seg ∈ L, isParamSeg seg = false) : L.filter isParamSeg = [] := by
  induction L with
  | nil => rfl
  | cons x xs ih =>
    rw [List.filter_cons, h x (List.mem_cons_self x xs)]
    simp only [Bool.false_eq_true, if_false]
    exact ih fun q hq => h q (List.mem_cons_of_mem x hq)

theorem paramSegs_no_colon (b : List Char) (h : ':' ∉ b) : paramSegs b = [] := by
  unfold paramSegs
  apply filter_isParam_eq_nil
  intro seg hseg
  unfold isParamSeg
  cases hx : seg.head? with
  | none => rfl
  | some a =>
    have ha : a ≠ ':' := by
      intro hc
      subst hc
      have hmem : ':' ∈ seg := by
        cases seg with
        | nil => cases hx
        | cons y t =>
          have : y = ':' := by simpa using hx
          rw [this]
          exact List.mem_cons_self ':' t
      exact h (mem_of_mem_splitSep '/' b seg hseg ':' hmem)
    simp [ha]

theorem dropsNothingB_joinSegs :
    ∀ (L : List (List Char)), (∀ s ∈ L, s ≠ [] ∧ '/' ∉ s) → L ≠ [] →
      dropsNothingB true (joinSegs L) = true := by
  intro L
  induction L with
  | nil => intro _ hne; exact absurd rfl hne
  | cons x rest ih =>
    intro h _
    have hx := h x (List.mem_cons_self x rest)
    cases rest with
    | nil => exact dropsNothingB_no_slash x true hx.2
    | cons y t =>
      have hrest : ∀ s ∈ y :: t, s ≠ [] ∧ '/' ∉ s := fun s hs => h s (List.mem_cons_of_mem x hs)
      show dropsNothingB true (x ++ '/' :: joinSegs (y :: t)) = true
      rw [dropsNothingB_append x true _ (dropsNothingB_no_slash x true hx.2),
        endSlashState_no_slash x true hx.1 hx.2]
      rw [dropsNothingB, if_pos rfl]
      simp only [Bool.false_eq_true, if_false]
      exact ih hrest (by simp)

theorem paramSegs_joinSegs_conv (parts : List (List Char))
    (hp : ∀ p ∈ parts, p ≠ [] ∧ '/' ∉ p ∧ p.head? ≠ some ':') (hne : parts ≠ []) :
    paramSegs (joinSegs (parts.map convSegment))
      = (bracketNames parts).map fun n => ':' :: n := by
  have hfree : ∀ s ∈ parts.map convSegment, '/' ∉ s := by
    intro s hs
    rcases List.mem_map.mp hs with ⟨p, hpmem, rfl⟩
    exact convSegment_no_slash p (hp p hpmem).2.1
  have hne2 : parts.map convSegment ≠ [] := by
    cases parts with
    | nil => exact absurd rfl hne
    | cons q qs => simp
  unfold paramSegs
  rw [splitSep_joinSegs _ hfree hne2]
  exact filter_param_conv parts hp

/-- Workhorse: the route of a `route.ts` file whose folder path (relative to
the routes root) has the given slash-free segments. -/
theorem route_shape (apiDir baseRoute : List Char) (parts : List (List Char))
    (hp : ∀ p ∈ parts, '/' ∉ p) :
    filePathToRouteL apiDir (apiDir ++ '/' :: joinSegs (parts ++ ["route.ts".data])) baseRoute
      = some (collapseSlashes (baseRoute ++ '/' :: joinSegs (parts.map convSegment))) := by
  have hall : ∀ s ∈ parts ++ ["route.ts".data], '/' ∉ s := by
    intro s hs
    rcases List.mem_append.mp hs with h1 | h2
    · exact hp s h1
    · have hs2 : s = "route.ts".data := by simpa using h2
      subst hs2
      decide
  have hsplit : splitSep '/' (joinSegs (parts ++ ["route.ts".data]))
      = parts ++ ["route.ts".data] :=
    splitSep_joinSegs _ hall (by simp)
  simp only [filePathToRouteL]
  rw [pathRelative_under, hsplit, List.getLast?_concat, List.dropLast_concat]
  simp

/-!
## C4 — bracketed folder segments become named parameters

Claim: a route file whose folder path relative to the routes root has N
bracketed segments maps to a route template with exactly those N named
parameters, written `:x`, in order, prefixed by the base route.
-/

/-- C4 (confirmed): for any routes root, any base route that is
slash-normalized (no `//`) and colon-free, and any folder path given by
nonempty slash-free segments that do not themselves begin with `:` — the
route of `{root}/<segments>/route.ts` exists, its named-parameter segments
are exactly the bracketed segments converted to `:name`, in original order,
and the route is prefixed by the base route. -/
theorem file_path_to_route_params (apiDir baseRoute : List Char) (parts : List (List Char))
    (hp : ∀ p ∈ parts, p ≠ [] ∧ '/' ∉ p ∧ p.head? ≠ some ':')
    (hb1 : ':' ∉ baseRoute) (hb2 : dropsNothingB false baseRoute = true) :
    ∃ r, filePathToRouteL apiDir
          (apiDir ++ '/' :: joinSegs (parts ++ ["route.ts".data])) baseRoute = some r
      ∧ paramSegs r = (bracketNames parts).map (fun n => ':' :: n)
      ∧ ∃ t, r = baseRoute ++ t := by
  have hshape := route_shape apiDir baseRoute parts fun p hps => (hp p hps).2.1
  refine ⟨_, hshape, ?_, ?_⟩
  all_goals
    unfold collapseSlashes
    rw [collapseAux_append baseRoute false _ hb2]
  case _ =>
    cases parts with
    | nil =>
      simp only [List.map_nil, joinSegs]
      cases hst : endSlashState false baseRoute with
      | true =>
        rw [collapseAux, if_pos rfl, if_pos rfl]
        show paramSegs (baseRoute ++ collapseAux true []) = _
        simp only [collapseAux, List.append_nil]
        rw [paramSegs_no_colon baseRoute hb1]
        rfl
      | false =>
        rw [collapseAux, if_pos rfl]
        simp only [Bool.false_eq_true, if_false]
        show paramSegs (baseRoute ++ '/' :: collapseAux true []) = _
        simp only [collapseAux]
        rw [paramSegs_append_slash, paramSegs_no_colon baseRoute hb1]
        rfl
    | cons q qs =>
      have hmem : ∀ s ∈ (q :: qs).map convSegment, s ≠ [] ∧ '/' ∉ s := by
        intro s hs
        rcases List.mem_map.mp hs with ⟨p, hpmem, rfl⟩
        exact ⟨convSegment_ne_nil p (hp p hpmem).1, convSegment_no_slash p (hp p hpmem).2.1⟩
      have hdn : dropsNothingB true (joinSegs ((q :: qs).map convSegment)) = true :=
        dropsNothingB_joinSegs _ hmem (by simp)
      have hnoop : collapseAux true (joinSegs ((q :: qs).map convSegment))
          = joinSegs ((q :: qs).map convSegment) := collapseAux_noop _ true hdn
      have hparJ := paramSegs_joinSegs_conv (q :: qs) hp (by simp)
      cases hst : endSlashState false baseRoute with
      | true =>
        rw [collapseAux, if_pos rfl, if_pos rfl, hnoop]
        rcases endSlashState_true_getLast baseRoute false hst with hnil | hlast
        · subst hnil
          cases hst
        · rcases List.getLast?_eq_some_iff.mp hlast with ⟨ys, hys⟩
          rw [hys]
          have hys_colon : ':' ∉ ys := by
            intro hmem2
            exact hb1 (hys ▸ List.mem_append_left _ hmem2)
          rw [List.append_assoc]
          show paramSegs (ys ++ '/' :: joinSegs ((q :: qs).map convSegment)) = _
          rw [paramSegs_append_slash, paramSegs_no_colon ys hys_colon, hparJ]
          rfl
      | false =>
        rw [collapseAux, if_pos rfl]
        simp only [Bool.false_eq_true, if_false]
        rw [hnoop, paramSegs_append_slash, paramSegs_no_colon baseRoute hb1, hparJ]
        rfl
  case _ =>
    exact ⟨_, rfl⟩

/-- C4 witness: `{root}/users/[id]/route.ts` under base route `/api` maps to
`/api/users/:id`, whose single parameter segment is `:id`, with the base
route as a prefix. -/
theorem file_path_to_route_params_witness :
    (filePathToRoute "/proj/api" "/proj/api/users/[id]/route.ts" "/api"
        = some "/api/users/:id")
    ∧ ∃ r, filePathToRouteL "/proj/api".data
          ("/proj/api".data ++ '/' :: joinSegs (["users".data, "[id]".data]
            ++ ["route.ts".data])) "/api".data = some r
        ∧ paramSegs r = (bracketNames ["users".data, "[id]".data]).map (fun n => ':' :: n)
        ∧ ∃ t, r = "/api".data ++ t :=
  ⟨by decide,
    file_path_to_route_params "/proj/api".data "/api".data ["users".data, "[id]".data]
      (by decide) (by decide) (by decide)⟩

/-!
## C5 — slash normalization and trailing slashes

Claim (refuted in its trailing-slash half): the route never contains `//`
(true), and never ends in a trailing slash except when the whole result is
the root route `/` — but a route file sitting directly in the routes root
yields `baseRoute + "/"`, e.g. `/api/`, which ends in a slash and is not `/`.
-/

/-- C5 counterexample: the route file directly in the routes root, under base
route `/api`, maps to `/api/` — a route with a trailing slash that is not the
root route `/`. -/
theorem route_trailing_slash_at_root :
    filePathToRoute "/srv/api" "/srv/api/route.ts" "/api" = some "/api/"
    ∧ "/api/".data.getLast? = some '/'
    ∧ "/api/" ≠ "/" := by
  refine ⟨by decide, by decide, by decide⟩

/-- C5 (corrected): every produced route is free of double slashes; a route
whose file sits in a (nonempty) folder path of nonempty slash-free segments
never ends in a trailing slash; and a route file directly in the routes root
produces exactly the collapsed `baseRoute + "/"` — the root route `/`
precisely when the base route collapses to `/` or is empty. -/
theorem route_no_double_slash_and_trailing :
    (∀ (a f b r : List Char), filePathToRouteL a f b = some r → hasAdjSlash r = false)
    ∧ (∀ (apiDir baseRoute : List Char) (parts : List (List Char)),
        (∀ p ∈ parts, p ≠ [] ∧ '/' ∉ p) → parts ≠ [] →
        ∀ r, filePathToRouteL apiDir
            (apiDir ++ '/' :: joinSegs (parts ++ ["route.ts".data])) baseRoute = some r →
          r.getLast? ≠ some '/')
    ∧ (∀ (apiDir baseRoute : List Char),
        filePathToRouteL apiDir (apiDir ++ '/' :: "route.ts".data) baseRoute
          = some (collapseSlashes (baseRoute ++ ['/']))) := by
  refine ⟨?_, ?_, ?_⟩
  · intro a f b r h
    simp only [filePathToRouteL] at h
    split at h
    · have hr := Option.some.inj h
      rw [← hr]
      exact collapseAux_no_adj _ false
    · cases h
  · intro apiDir baseRoute parts hp hne r h
    rw [route_shape apiDir baseRoute parts (fun p hps => (hp p hps).2)] at h
    have hr := Option.some.inj h
    have hmem : ∀ s ∈ parts.map convSegment, s ≠ [] ∧ '/' ∉ s := by
      intro s hs
      rcases List.mem_map.mp hs with ⟨p, hpmem, rfl⟩
      exact ⟨convSegment_ne_nil p (hp p hpmem).1, convSegment_no_slash p (hp p hpmem).2⟩
    have hne2 : parts.map convSegment ≠ [] := by
      cases parts with
      | nil => exact absurd rfl hne
      | cons q qs => simp
    obtain ⟨ch, hch, hchne⟩ := joinSegs_getLast (parts.map convSegment) hmem hne2
    have hJne : joinSegs (parts.map convSegment) ≠ [] :=
      joinSegs_ne_nil _ (fun s hs => (hmem s hs).1) hne2
    have hlast : (baseRoute ++ '/' :: joinSegs (parts.map convSegment)).getLast? = some ch := by
      rw [getLast?_append_ne _ _ (by simp), getLast?_cons_of_ne_nil '/' _ hJne, hch]
    have := collapseAux_getLast _ ch hchne false hlast
    rw [← hr]
    unfold collapseSlashes
    rw [this]
    intro hcontra
    exact hchne (Option.some.inj hcontra)
  · intro apiDir baseRoute
    have := route_shape apiDir baseRoute [] fun p hps => absurd hps (List.not_mem_nil p)
    simpa [joinSegs] using this

/-- C5 witness: `{root}/users/route.ts` under `/api` gives `/api/users`: no
double slash and no trailing slash; and the root-file case yields the
collapsed `/api/`. -/
theorem route_no_double_slash_and_trailing_witness :
    hasAdjSlash "/api/users".data = false
    ∧ "/api/users".data.getLast? ≠ some '/'
    ∧ filePathToRouteL "/s".data ("/s".data ++ '/' :: "route.ts".data) "/api".data
        = some (collapseSlashes ("/api".data ++ ['/'])) :=
  ⟨route_no_double_slash_and_trailing.1 "/s".data
      ("/s".data ++ '/' :: joinSegs (["users".data] ++ ["route.ts".data])) "/api".data
      "/api/users".data (by decide),
    route_no_double_slash_and_trailing.2.1 "/s".data "/api".data ["users".data]
      (by decide) (by decide) "/api/users".data (by decide),
    route_no_double_slash_and_trailing.2.2 "/s".data "/api".data⟩

/-!
## C6 — the route cache against pure recomputation

Claim (refuted for its final clause): the cached implementation returns, for
every call, the same value as the uncached recomputation from
`(routesRoot, filePath, baseRoute)` — *including* when two calls share
`routesRoot` and `filePath` but pass different `baseRoute` values.  The
cache key `` `${apiDir}:${filePath}` `` omits `baseRoute`, so the second call
is served the first call's route.
-/

/-- C6 counterexample: two calls sharing the routes root and file path but
passing base routes `/a` and `/b`: the cached implementation answers `/a/`
both times, while the uncached recomputation of the second call gives
`/b/`. -/
theorem route_cache_stale_base_route :
    (runRouteCalls []
        [("/r".data, "/r/route.ts".data, "/a".data),
          ("/r".data, "/r/route.ts".data, "/b".data)]).1
      = [some "/a/".data, some "/a/".data]
    ∧ filePathToRouteL "/r".data "/r/route.ts".data "/b".data = some "/b/".data
    ∧ some "/a/".data ≠ some "/b/".data := by
  refine ⟨by decide, by decide, by decide⟩

/-- Helper for C6: along any call sequence in which calls agreeing on the
concatenated cache key agree on the whole argument triple, a cache whose
entries already agree with the pure function stays coherent, and every call
is answered by the pure recomputation. -/
theorem runRouteCalls_pure :
    ∀ (calls : List (List Char × List Char × List Char)) (rc : RouteCache),
      (∀ k v, lookupAssoc k rc = some v →
        ∀ t ∈ calls, cacheKey t.1 t.2.1 = k → v = filePathToRouteL t.1 t.2.1 t.2.2) →
      (∀ x ∈ calls, ∀ y ∈ calls, cacheKey x.1 x.2.1 = cacheKey y.1 y.2.1 → x = y) →
      (runRouteCalls rc calls).1 = calls.map fun t => filePathToRouteL t.1 t.2.1 t.2.2 := by
  intro calls
  induction calls with
  | nil => intro rc _ _; rfl
  | cons t rest ih =>
    intro rc hrc hcoh
    obtain ⟨a, f, b⟩ := t
    have hmemt : (a, f, b) ∈ (a, f, b) :: rest := List.mem_cons_self _ _
    have hcoh' : ∀ x ∈ rest, ∀ y ∈ rest, cacheKey x.1 x.2.1 = cacheKey y.1 y.2.1 → x = y :=
      fun x hx y hy => hcoh x (List.mem_cons_of_mem _ hx) y (List.mem_cons_of_mem _ hy)
    show (runRouteCalls rc ((a, f, b) :: rest)).1 = _
    unfold runRouteCalls filePathToRouteCachedL
    cases hl : lookupAssoc (cacheKey a f) rc with
    | some v =>
      have hv : v = filePathToRouteL a f b := hrc _ _ hl (a, f, b) hmemt rfl
      simp only [hl, hv, List.map_cons]
      rw [ih rc ?_ hcoh']
      intro k v' hkv t' ht' hk
      exact hrc k v' hkv t' (List.mem_cons_of_mem _ ht') hk
    | none =>
      simp only [hl, List.map_cons]
      rw [ih _ ?_ hcoh']
      intro k v' hkv t' ht' hk
      by_cases hkey : cacheKey a f = k
      · have : t' = (a, f, b) := by
          refine hcoh t' (List.mem_cons_of_mem _ ht') (a, f, b) hmemt ?_
          rw [hk, hkey]
        subst this
        rw [lookupAssoc, if_pos hkey] at hkv
        exact (Option.some.inj hkv).symm
      · rw [lookupAssoc, if_neg hkey] at hkv
        exact hrc k v' hkv t' (List.mem_cons_of_mem _ ht') hk

/-- C6 (corrected): the cached implementation agrees with the pure
recomputation along every call sequence in which any two calls producing the
same cache key `` `${routesRoot}:${filePath}` `` pass identical
`(routesRoot, filePath, baseRoute)` triples — in particular whenever all
calls sharing a routes root and file path use one fixed base route.  (With
different base routes on a shared key, the counterexample applies: the cache
serves the first call's value.) -/
theorem route_cache_agrees_when_keys_determine_calls
    (calls : List (List Char × List Char × List Char))
    (hcoh : ∀ x ∈ calls, ∀ y ∈ calls, cacheKey x.1 x.2.1 = cacheKey y.1 y.2.1 → x = y) :
    (runRouteCalls [] calls).1 = calls.map fun t => filePathToRouteL t.1 t.2.1 t.2.2 :=
  runRouteCalls_pure calls []
    (fun k v hkv => by rw [lookupAssoc] at hkv; cases hkv) hcoh

/-- C6 witness: repeating one identical call is answered by the pure
recomputation both times. -/
theorem route_cache_agrees_witness :
    (runRouteCalls []
        [("/r".data, "/r/route.ts".data, "/a".data),
          ("/r".data, "/r/route.ts".data, "/a".data)]).1
      = ([("/r".data, "/r/route.ts".data, "/a".data),
          ("/r".data, "/r/route.ts".data, "/a".data)].map
            fun t => filePathToRouteL t.1 t.2.1 t.2.2) :=
  route_cache_agrees_when_keys_determine_calls _ (by decide)

/-!
## C2 — batch loading: isolation, counting, no throw

Claim: every file's load settles independently; one file's load failure is
logged, contributes zero registrations, and does not abort or block the
others; `loadApiRoutes` returns the count of successfully registered
`(method, route)` pairs and never throws because of one bad route file.
-/

/-- Helper: loading a file the loader state knows nothing about evaluates its
first import, and leaves every other file's cache entry and count
untouched. -/
theorem loadModuleOnce_fresh (prod : Bool) (oracle : ImportOracle) (st : LoaderState)
    (f : String) (h1 : lookupAssoc f st.moduleCache = none) (h2 : countOf st f = 0) :
    (loadModuleOnce prod oracle st f).1 = oracle f 0
    ∧ ∀ g, g ≠ f →
        lookupAssoc g (loadModuleOnce prod oracle st f).2.moduleCache
            = lookupAssoc g st.moduleCache
        ∧ countOf (loadModuleOnce prod oracle st f).2 g = countOf st g := by
  have hcache : (if prod then lookupAssoc f st.moduleCache else none)
      = (none : Option RouteModule) := by
    cases prod <;> simp [h1]
  refine ⟨?_, fun g hg => ⟨?_, ?_⟩⟩
  · cases ho : oracle f 0 with
    | some m => simp [loadModuleOnce, hcache, h2, ho]
    | none => simp [loadModuleOnce, hcache, h2, ho]
  · have hfg : f ≠ g := fun hh => hg hh.symm
    cases ho : oracle f 0 with
    | some m =>
      cases prod with
      | true => simp [loadModuleOnce, h1, h2, ho, lookupAssoc, hfg]
      | false => simp [loadModuleOnce, h1, h2, ho]
    | none => simp [loadModuleOnce, hcache, h2, ho]
  · have hfg : f ≠ g := fun hh => hg hh.symm
    have h2' : (lookupAssoc f st.importCount).getD 0 = 0 := h2
    cases ho : oracle f 0 with
    | some m => simp [loadModuleOnce, hcache, h2', ho, countOf, lookupAssoc, hfg]
    | none => simp [loadModuleOnce, hcache, h2', ho, countOf, lookupAssoc, hfg]

/-- Helper: on pairwise-distinct files none of which the loader state has
seen, the batch settles to each file's own first import evaluation. -/
theorem loadAll_fresh (prod : Bool) (oracle : ImportOracle) :
    ∀ (files : List String) (st : LoaderState),
      (∀ f ∈ files, lookupAssoc f st.moduleCache = none ∧ countOf st f = 0) →
      files.Nodup →
      (loadAll prod oracle st files).1 = files.map fun f => (f, oracle f 0) := by
  intro files
  induction files with
  | nil => intro st _ _; rfl
  | cons h t ih =>
    intro st hfresh hnd
    have hh := hfresh h (List.mem_cons_self h t)
    have hstep := loadModuleOnce_fresh prod oracle st h hh.1 hh.2
    have hnd' := List.nodup_cons.mp hnd
    have hfresh2 : ∀ f ∈ t,
        lookupAssoc f (loadModuleOnce prod oracle st h).2.moduleCache = none
        ∧ countOf (loadModuleOnce prod oracle st h).2 f = 0 := by
      intro f hf
      have hfh : f ≠ h := fun he => hnd'.1 (he ▸ hf)
      have hold := hfresh f (List.mem_cons_of_mem h hf)
      have hkeep := hstep.2 f hfh
      exact ⟨hkeep.1.trans hold.1, hkeep.2.trans hold.2⟩
    show ((h, (loadModuleOnce prod oracle st h).1) :: (loadAll prod oracle _ t).1) = _
    rw [hstep.1, ih (loadModuleOnce prod oracle st h).2 hfresh2 hnd'.2, List.map_cons]

/-- Helper: the cache keys of a fixed routes root separate file paths. -/
theorem cacheKey_right_inj (a : List Char) (f g : String)
    (h : cacheKey a f.data = cacheKey a g.data) : f = g := by
  unfold cacheKey at h
  have := List.append_cancel_left h
  exact congrArg String.mk (List.cons.inj this).2

/-- Helper: registration over independently settled loads, with fresh route
cache keys, produces each file's isolated contribution. -/
theorem registerAll_pure (apiDir baseRoute : String) (oracle : ImportOracle) :
    ∀ (files : List String) (rc : RouteCache),
      (∀ f ∈ files, lookupAssoc (cacheKey apiDir.data f.data) rc = none) →
      files.Nodup →
      (registerAll rc apiDir baseRoute (files.map fun f => (f, oracle f 0))).1
        = (files.map fun f => perFileRegs oracle apiDir baseRoute f).flatten := by
  intro files
  induction files with
  | nil => intro rc _ _; rfl
  | cons h t ih =>
    intro rc hfresh hnd
    have hnd' := List.nodup_cons.mp hnd
    have htail : ∀ (rc' : RouteCache),
        (∀ f ∈ t, lookupAssoc (cacheKey apiDir.data f.data) rc' = none) →
        (registerAll rc' apiDir baseRoute (t.map fun f => (f, oracle f 0))).1
          = (t.map fun f => perFileRegs oracle apiDir baseRoute f).flatten :=
      fun rc' hf => ih rc' hf hnd'.2
    have hkey := hfresh h (List.mem_cons_self h t)
    have hfreshT : ∀ f ∈ t, lookupAssoc (cacheKey apiDir.data f.data) rc = none :=
      fun f hf => hfresh f (List.mem_cons_of_mem h hf)
    have hfreshT' : ∀ (v : Option (List Char)), ∀ f ∈ t,
        lookupAssoc (cacheKey apiDir.data f.data)
          ((cacheKey apiDir.data h.data, v) :: rc) = none := by
      intro v f hf
      have hne : cacheKey apiDir.data h.data ≠ cacheKey apiDir.data f.data := by
        intro hk
        exact hnd'.1 ((cacheKey_right_inj apiDir.data h f hk) ▸ hf)
      rw [lookupAssoc, if_neg hne]
      exact hfreshT f hf
    have hstep : (registerAll rc apiDir baseRoute
          ((h, oracle h 0) :: t.map fun f => (f, oracle f 0))).1
        = (registerFile rc apiDir baseRoute (h, oracle h 0)).1
          ++ (registerAll (registerFile rc apiDir baseRoute (h, oracle h 0)).2
                apiDir baseRoute (t.map fun f => (f, oracle f 0))).1 := rfl
    rw [List.map_cons, hstep, List.map_cons, List.flatten_cons]
    cases ho : oracle h 0 with
    | none =>
      have hreg : registerFile rc apiDir baseRoute (h, (none : Option RouteModule))
          = ([], rc) := rfl
      rw [hreg]
      simp only [List.nil_append]
      rw [htail rc hfreshT]
      simp [perFileRegs, ho]
    | some m =>
      cases he : m.errorExport with
      | true =>
        have hreg : registerFile rc apiDir baseRoute (h, some m) = ([], rc) := by
          simp [registerFile, he]
        rw [hreg]
        simp only [List.nil_append]
        rw [htail rc hfreshT]
        simp [perFileRegs, ho, he]
      | false =>
        cases hroute : filePathToRouteL apiDir.data h.data baseRoute.data with
        | none =>
          have hreg : registerFile rc apiDir baseRoute (h, some m)
              = ([], (cacheKey apiDir.data h.data,
                  (none : Option (List Char))) :: rc) := by
            simp [registerFile, he, filePathToRouteCachedL, hkey, hroute]
          rw [hreg]
          simp only [List.nil_append]
          rw [htail _ (hfreshT' none)]
          simp [perFileRegs, ho, he, hroute]
        | some routeL =>
          have hreg : registerFile rc apiDir baseRoute (h, some m)
              = (registerModule ⟨routeL⟩ m, (cacheKey apiDir.data h.data,
                  some routeL) :: rc) := by
            simp [registerFile, he, filePathToRouteCachedL, hkey, hroute]
          rw [hreg]
          rw [htail _ (hfreshT' (some routeL))]
          have hhd : perFileRegs oracle apiDir baseRoute h = registerModule ⟨routeL⟩ m := by
            simp [perFileRegs, ho, he, hroute]
          rw [hhd]

/-- C2 (confirmed): over pairwise-distinct route files, from a fresh process
state, the registrations of the whole batch are the concatenation of each
file's isolated contribution — computed from that file's own first import
evaluation alone, so one file's failure yields an empty contribution and
leaves every other file's registrations untouched, and the model (being a
total function) completes on every input; the returned count is the total
number of registered `(method, route)` pairs, the sum of the per-file
registration counts; and a file whose load fails contributes zero. -/
theorem load_api_routes_isolated (prod : Bool) (oracle : ImportOracle)
    (apiDir baseRoute : String) (files : List String) (hnd : files.Nodup) :
    (loadApiRoutesModel prod oracle initLoaderState [] apiDir baseRoute files).1
      = (files.map fun f => perFileRegs oracle apiDir baseRoute f).flatten
    ∧ (loadApiRoutesModel prod oracle initLoaderState [] apiDir baseRoute files).2.1
      = ((files.map fun f => perFileRegs oracle apiDir baseRoute f).map List.length).sum
    ∧ (∀ f ∈ files, oracle f 0 = none → perFileRegs oracle apiDir baseRoute f = []) := by
  have hA := loadAll_fresh prod oracle files initLoaderState
    (fun f _ => ⟨rfl, rfl⟩) hnd
  have hB := registerAll_pure apiDir baseRoute oracle files []
    (fun f _ => rfl) hnd
  have hmodel1 : (loadApiRoutesModel prod oracle initLoaderState [] apiDir baseRoute files).1
      = (registerAll [] apiDir baseRoute
          (loadAll prod oracle initLoaderState files).1).1 := rfl
  have hmain : (loadApiRoutesModel prod oracle initLoaderState [] apiDir baseRoute files).1
      = (files.map fun f => perFileRegs oracle apiDir baseRoute f).flatten := by
    rw [hmodel1, hA]
    exact hB
  have hcount : (loadApiRoutesModel prod oracle initLoaderState [] apiDir baseRoute files).2.1
      = (loadApiRoutesModel prod oracle initLoaderState [] apiDir baseRoute files).1.length :=
    rfl
  refine ⟨hmain, ?_, ?_⟩
  · rw [hcount, hmain, List.length_flatten]
  · intro f _ hf
    simp [perFileRegs, hf]

/-- C2 witness: the spec's three-file scenario — the second file's load
throws — registers exactly two `(method, route)` pairs and the batch
completes. -/
theorem load_api_routes_isolated_witness :
    (loadApiRoutesModel false demoOracle initLoaderState [] "/r" "/api" demoFiles).2.1 = 2 :=
  ((load_api_routes_isolated false demoOracle "/r" "/api" demoFiles (by decide)).2.1).trans
    (by decide)

/-!
## C7 — the file collector

Claim (refuted): `collectFiles` returns every file with a recognized
extension under the root, recursively, skipping only unreadable directories
(with a warning).  The walker's guard `stack.length < maxDepth` is a cap on
the number of *pending* directories, not a depth bound: as soon as 20
directories are pending the loop exits, dropping every not-yet-visited
directory — so a root with 20 readable subdirectories yields no files at
all.
-/

/-- C7 counterexample: a routes root with 20 readable subdirectories, each
holding a `route.ts` file at depth 2, produces an empty scan — the cap
aborts the walk after reading only the root — even though the recursive
collection of readable directories holds all 20 files. -/
theorem collect_files_cap_drops_files :
    collectFiles "/r" true wideForest = []
    ∧ "/r/d0/route.ts" ∈ allFilesF "/r" wideForest
    ∧ (allFilesF "/r" wideForest).length = 20 := by
  refine ⟨by decide, by decide, by decide⟩

/-- Helper: a stack of pending directories is at most its measure long. -/
theorem length_le_stackMeasure : ∀ (st : List StackEntry), st.length ≤ stackMeasure st := by
  intro st
  induction st with
  | nil => exact Nat.le_refl 0
  | cons e rest ih =>
    show rest.length + 1 ≤ entryMeasure e + stackMeasure rest
    have : 1 ≤ entryMeasure e := Nat.le_add_right 1 _
    omega

theorem stackMeasure_append (a b : List StackEntry) :
    stackMeasure (a ++ b) = stackMeasure a + stackMeasure b := by
  simp [stackMeasure]

/-- Helper: the pending entries pushed for a directory's subdirectories weigh
exactly the directory count of its listing. -/
theorem stackMeasure_dirEntriesOf (p : String) :
    ∀ (items : FSForest), stackMeasure (dirEntriesOf p items) = dirCountF items
  | .nil => rfl
  | .cons (.file n) ts => by
    show stackMeasure (dirEntriesOf p ts) = dirCount (.file n) + dirCountF ts
    rw [stackMeasure_dirEntriesOf p ts]
    show dirCountF ts = 0 + dirCountF ts
    omega
  | .cons (.dir n r cs) ts => by
    show entryMeasure (p ++ "/" ++ n, r, cs) + stackMeasure (dirEntriesOf p ts)
        = dirCount (.dir n r cs) + dirCountF ts
    rw [stackMeasure_dirEntriesOf p ts]
    rfl

/-- Helper: the recursive collection of a listing splits into its matching
files and the collections owed by its subdirectory entries. -/
theorem allFilesF_decomp (p : String) :
    ∀ (items : FSForest),
      (allFilesF p items).Perm
        (matchFilesOrd p items ++ ((dirEntriesOf p items).map allFilesEntry).flatten)
  | .nil => List.Perm.refl _
  | .cons (.file n) ts => by
    have ih := allFilesF_decomp p ts
    show ((if extMatch n.data then [p ++ "/" ++ n] else []) ++ allFilesF p ts).Perm
      (((if extMatch n.data then [p ++ "/" ++ n] else []) ++ matchFilesOrd p ts)
        ++ ((dirEntriesOf p ts).map allFilesEntry).flatten)
    rw [List.append_assoc]
    exact ih.append_left _
  | .cons (.dir n r cs) ts => by
    have ih := allFilesF_decomp p ts
    show (allFilesEntry (p ++ "/" ++ n, r, cs) ++ allFilesF p ts).Perm
      (matchFilesOrd p ts ++ (allFilesEntry (p ++ "/" ++ n, r, cs)
        ++ ((dirEntriesOf p ts).map allFilesEntry).flatten))
    have h1 : (allFilesEntry (p ++ "/" ++ n, r, cs) ++ allFilesF p ts).Perm
        (allFilesEntry (p ++ "/" ++ n, r, cs)
          ++ (matchFilesOrd p ts ++ ((dirEntriesOf p ts).map allFilesEntry).flatten)) :=
      ih.append_left _
    refine h1.trans ?_
    have heq1 : allFilesEntry (p ++ "/" ++ n, r, cs)
        ++ (matchFilesOrd p ts ++ ((dirEntriesOf p ts).map allFilesEntry).flatten)
      = (allFilesEntry (p ++ "/" ++ n, r, cs) ++ matchFilesOrd p ts)
        ++ ((dirEntriesOf p ts).map allFilesEntry).flatten := (List.append_assoc _ _ _).symm
    have heq2 : matchFilesOrd p ts ++ (allFilesEntry (p ++ "/" ++ n, r, cs)
        ++ ((dirEntriesOf p ts).map allFilesEntry).flatten)
      = (matchFilesOrd p ts ++ allFilesEntry (p ++ "/" ++ n, r, cs))
        ++ ((dirEntriesOf p ts).map allFilesEntry).flatten := (List.append_assoc _ _ _).symm
    rw [heq1, heq2]
    exact (List.perm_append_comm).append_right _

/-- Helper: as long as the pending-stack measure stays under the cap (and
within fuel), the loop collects, up to order, the accumulated files plus
everything the pending entries owe. -/
theorem collectLoopF_perm :
    ∀ (fuel : Nat) (stack : List StackEntry) (acc : List String),
      stackMeasure stack ≤ fuel → stackMeasure stack ≤ 19 →
      (collectLoopF fuel stack acc).Perm
        (acc ++ (stack.map allFilesEntry).flatten) := by
  intro fuel
  induction fuel with
  | zero =>
    intro stack acc h0 _
    have hm : stackMeasure stack = 0 := Nat.le_zero.mp h0
    have hlen : stack.length = 0 :=
      Nat.le_zero.mp (hm ▸ length_le_stackMeasure stack)
    have hst : stack = [] := List.length_eq_zero.mp hlen
    subst hst
    have h0' : collectLoopF 0 [] acc = acc := rfl
    rw [h0']
    simp only [List.map_nil, List.flatten_nil, List.append_nil]
    exact List.Perm.refl acc
  | succ f ih =>
    intro stack acc hf h19
    cases stack with
    | nil =>
      have h0' : collectLoopF (f + 1) [] acc = acc := rfl
      rw [h0']
      simp only [List.map_nil, List.flatten_nil, List.append_nil]
      exact List.Perm.refl acc
    | cons e rest =>
      have hlen : (e :: rest).length < 20 :=
        Nat.lt_of_le_of_lt (Nat.le_trans (length_le_stackMeasure _) h19) (by omega)
      obtain ⟨p, rb, items⟩ := e
      have hsm : stackMeasure ((p, rb, items) :: rest)
          = 1 + dirCountF items + stackMeasure rest := rfl
      cases rb with
      | true =>
        have hnew : stackMeasure (dirEntriesOf p items ++ rest)
            = dirCountF items + stackMeasure rest := by
          rw [stackMeasure_append, stackMeasure_dirEntriesOf]
        have hstep : collectLoopF (f + 1) ((p, true, items) :: rest) acc
            = collectLoopF f (dirEntriesOf p items ++ rest)
                (acc ++ (matchFilesOrd p items).reverse) := by
          simp [collectLoopF, hlen]
          intro hcontra
          have hl2 : rest.length + 1 < 20 := by simpa using hlen
          exact absurd hcontra (by omega)
        rw [hstep]
        rw [hsm] at hf h19
        have hih := ih (dirEntriesOf p items ++ rest)
          (acc ++ (matchFilesOrd p items).reverse)
          (by omega) (by omega)
        refine hih.trans ?_
        rw [List.map_append, List.flatten_append, List.map_cons, List.flatten_cons,
          List.append_assoc]
        refine List.Perm.append_left acc ?_
        have hE : allFilesEntry (p, true, items) = allFilesF p items := rfl
        rw [hE]
        have hrev : ((matchFilesOrd p items).reverse
            ++ (((dirEntriesOf p items).map allFilesEntry).flatten
              ++ (rest.map allFilesEntry).flatten)).Perm
          (matchFilesOrd p items
            ++ (((dirEntriesOf p items).map allFilesEntry).flatten
              ++ (rest.map allFilesEntry).flatten)) :=
          ((matchFilesOrd p items).reverse_perm).append_right _
        refine hrev.trans ?_
        have hassoc : matchFilesOrd p items
            ++ (((dirEntriesOf p items).map allFilesEntry).flatten
              ++ (rest.map allFilesEntry).flatten)
          = (matchFilesOrd p items
              ++ ((dirEntriesOf p items).map allFilesEntry).flatten)
            ++ (rest.map allFilesEntry).flatten := (List.append_assoc _ _ _).symm
        rw [hassoc]
        exact ((allFilesF_decomp p items).symm).append_right _
      | false =>
        have hstep : collectLoopF (f + 1) ((p, false, items) :: rest) acc
            = collectLoopF f rest acc := by
          simp [collectLoopF, hlen]
          intro hcontra
          have hl2 : rest.length + 1 < 20 := by simpa using hlen
          exact absurd hcontra (by omega)
        rw [hstep]
        rw [hsm] at hf h19
        have hih := ih rest acc (by omega) (by omega)
        refine hih.trans ?_
        rw [List.map_cons, List.flatten_cons]
        have hE : allFilesEntry (p, false, items) = [] := rfl
        rw [hE, List.nil_append]

/-- C7 (corrected): whenever the tree under the root holds at most 19
directories in total (root included) — so that the pending stack can never
reach the 20-entry cap — `collectFiles` returns, up to order, exactly the
recursively matching files of readable directories: every `.ts`/`.js`/
`.mts`/`.mjs` file under a chain of readable directories is returned, an
unreadable subdirectory is skipped (with a warning) without aborting the
scan or dropping files of other readable directories. -/
theorem collect_files_complete_below_cap (p : String) (readable : Bool) (children : FSForest)
    (hsmall : dirCountF children ≤ 18) :
    (collectFiles p readable children).Perm (allFilesEntry (p, readable, children)) := by
  have hm : stackMeasure [(p, readable, children)] = 1 + dirCountF children := by
    show entryMeasure (p, readable, children) + 0 = _
    show 1 + dirCountF children + 0 = _
    omega
  have hperm := collectLoopF_perm (1 + dirCountF children) [(p, readable, children)] []
    (le_of_eq hm) (by omega)
  refine hperm.trans ?_
  simp

/-- C7 witness: a root with one matching file and one unreadable
subdirectory (itself containing a matching file) yields, up to order,
exactly the root's file — the unreadable directory is skipped without
aborting the scan. -/
theorem collect_files_complete_below_cap_witness :
    (collectFiles "/r" true
        (.cons (.dir "sub" false (.cons (.file "x.ts") .nil))
          (.cons (.file "a.ts") .nil))).Perm
      (allFilesEntry ("/r", true,
        (.cons (.dir "sub" false (.cons (.file "x.ts") .nil))
          (.cons (.file "a.ts") .nil)))) :=
  collect_files_complete_below_cap "/r" true
    (.cons (.dir "sub" false (.cons (.file "x.ts") .nil))
      (.cons (.file "a.ts") .nil)) (by decide)

end Fastay

